import Mathlib

/-!
Verification development for the mockapi-responder core: route compilation and
resolution (`RouteHandler`), template expansion (`TemplateEngine`), and the
request dispatch pipeline (`MockServer`).  Each definition is a shallow
embedding of the corresponding TypeScript function; JavaScript strings are
modelled as `List Char`/`String`, parsed JSON values as the inductive `Val`,
machine numbers as unbounded `Nat`/`Int`/`Rat` (the sources never rely on
overflow), and functions that can throw return `Option`/`Except`.
-/

set_option maxRecDepth 4096

namespace MockApi

/-- JSON-like values: the domain of parsed request bodies and of response
templates (`any` values produced by `JSON.parse`/YAML loading).  JavaScript
numbers are modelled as exact rationals; every number that can appear here
comes from a JSON literal, so it has a finite decimal representation. -/
inductive Val where
  | null
  | bool (b : Bool)
  | num (q : Rat)
  | str (s : String)
  | arr (elems : List Val)
  | obj (fields : List (String × Val))
deriving Inhabited

/-- A query-string parameter as express delivers it: `string | string[]`. -/
inductive QueryVal where
  | one (s : String)
  | many (ss : List String)
deriving DecidableEq

/-- `RequestContext` from `types.ts`: path parameters, query parameters, the
parsed body (`none` when absent) and the header map.  Records are modelled as
association lists over their own (enumerable) keys; prototype-inherited
properties of JavaScript objects are not modelled. -/
structure RequestContext where
  params : List (String × String)
  query : List (String × QueryVal)
  body : Option Val
  headers : List (String × String)

/-- First-match association-list lookup (JavaScript own-property access). -/
def assocFind (l : List (String × α)) (k : String) : Option α :=
  match l.find? (fun p => p.1 = k) with
  | some p => some p.2
  | none => none

/-! ### Condition substitution (`MockServer.evaluateCondition`)

The server rewrites `params.<name>` and `query.<name>` occurrences (JavaScript
`/params\.(\w+)/g` and `/query\.(\w+)/g` global replaces) before evaluating
the condition text. -/

/-- JavaScript `\w`: ASCII letters, digits and underscore. -/
def isWordChar (c : Char) : Bool :=
  c.isAlphanum || c = '_'

/-- Strip an exact leading character sequence, returning the remainder. -/
def stripPre : List Char → List Char → Option (List Char)
  | [], cs => some cs
  | _ :: _, [] => none
  | p :: ps, c :: cs => if p = c then stripPre ps cs else none

/-- Maximal leading run of word characters and the remainder (`\w+` greedy). -/
def wordRun : List Char → List Char × List Char
  | [] => ([], [])
  | c :: cs =>
    if isWordChar c then
      let wr := wordRun cs
      (c :: wr.1, wr.2)
    else ([], c :: cs)

/-- One pass of a global regex replace of `<pre>(\w+)`: at each position, if
the literal `pre` followed by a non-empty word run matches, the whole match is
replaced by `repl name` and scanning resumes after it; otherwise the scanner
advances one character.  Fuel-driven so that it is structurally recursive;
`substPrefixed` supplies enough fuel for the scan to complete. -/
def substPrefixedF (pre : List Char) (repl : String → List Char) :
    Nat → List Char → List Char
  | 0, cs => cs
  | _ + 1, [] => []
  | fuel + 1, c :: cs =>
    match stripPre pre (c :: cs) with
    | some rest =>
      let wr := wordRun rest
      if wr.1 = [] then c :: substPrefixedF pre repl fuel cs
      else repl (String.mk wr.1) ++ substPrefixedF pre repl fuel wr.2
    | none => c :: substPrefixedF pre repl fuel cs

def substPrefixed (pre : List Char) (repl : String → List Char)
    (cs : List Char) : List Char :=
  substPrefixedF pre repl cs.length cs

/-- Replacement text for `params.<name>`: a present path parameter (always a
string) is wrapped in double quotes; a missing one becomes
`String(undefined) = "undefined"` (unquoted). -/
def paramRepl (ctx : RequestContext) (name : String) : List Char :=
  match assocFind ctx.params name with
  | some v => '"' :: (v.data ++ ['"'])
  | none => "undefined".data

/-- Replacement text for `query.<name>`: array values contribute their first
element; a present string is wrapped in double quotes; anything else becomes
the text `undefined`. -/
def queryRepl (ctx : RequestContext) (name : String) : List Char :=
  match assocFind ctx.query name with
  | some (.one s) => '"' :: (s.data ++ ['"'])
  | some (.many ss) =>
    match ss with
    | s :: _ => '"' :: (s.data ++ ['"'])
    | [] => "undefined".data
  | none => "undefined".data

/-- The condition text after both substitutions (`params` first, then
`query`, matching the statement order in `evaluateCondition`). -/
def processedCondition (ctx : RequestContext) (condition : String) : List Char :=
  substPrefixed "query.".data (queryRepl ctx)
    (substPrefixed "params.".data (paramRepl ctx) condition.data)

/-! ### Shape matching (`MockServer.simpleConditionEval`) -/

/-- Characters of the safety whitelist `/^[a-zA-Z0-9\s"'._><=!&|()]+$/`.
JavaScript `\s` whitespace is modelled by its common members; none of the
claims depends on exotic whitespace. -/
def condCharOk (c : Char) : Bool :=
  c.isAlphanum || c = ' ' || c = '\t' || c = '\n' || c = '\r' ||
  c.toNat = 11 || c.toNat = 12 || c.toNat = 160 || c.toNat = 0xfeff ||
  c = '"' || c = '\'' || c = '.' || c = '_' || c = '>' || c = '<' ||
  c = '=' || c = '!' || c = '&' || c = '|' || c = '(' || c = ')'

/-- Parse `"([^"]*)"`: a double-quoted run of non-quote characters, returning
the run and the remainder. -/
def parseQuoted : List Char → Option (List Char × List Char)
  | [] => none
  | c :: rest =>
    if c = '"' then
      match rest.dropWhile (fun x => decide (¬x = '"')) with
      | q :: r2 =>
        if q = '"' then some (rest.takeWhile (fun x => decide (¬x = '"')), r2)
        else none
      | [] => none
    else none

/-- The anchored shape `^"([^"]*)" === "([^"]*)"$`. -/
def parseEqShape (cs : List Char) : Option (List Char × List Char) :=
  match parseQuoted cs with
  | some (a, r) =>
    match stripPre [' ', '=', '=', '=', ' '] r with
    | some r2 =>
      match parseQuoted r2 with
      | some (b, []) => some (a, b)
      | _ => none
    | none => none
  | none => none

/-- The anchored shape `^"([^"]*)" !== "([^"]*)"$`. -/
def parseNeqShape (cs : List Char) : Option (List Char × List Char) :=
  match parseQuoted cs with
  | some (a, r) =>
    match stripPre [' ', '!', '=', '=', ' '] r with
    | some r2 =>
      match parseQuoted r2 with
      | some (b, []) => some (a, b)
      | _ => none
    | none => none
  | none => none

def isCmpChar (c : Char) : Bool :=
  c = '>' || c = '<' || c = '='

/-- The anchored shape `^(\d+) ([><=]+) (\d+)$`: digits, a space, a non-empty
run of `>`/`<`/`=`, a space, digits. -/
def parseNumShape (cs : List Char) : Option (List Char × List Char × List Char) :=
  let l := cs.takeWhile Char.isDigit
  if l = [] then none else
  match cs.dropWhile Char.isDigit with
  | ' ' :: r2 =>
    let op := r2.takeWhile isCmpChar
    if op = [] then none else
    match r2.dropWhile isCmpChar with
    | ' ' :: r4 =>
      let rd := r4.takeWhile Char.isDigit
      if rd = [] then none
      else if r4.dropWhile Char.isDigit = [] then some (l, op, rd)
      else none
    | _ => none
  | _ => none

/-- Digit run to a number.  `parseInt` yields a double; the digit counts in
play never reach the range where doubles lose precision, so `Nat` is used. -/
def natOfDigits (ds : List Char) : Nat :=
  ds.foldl (fun acc c => acc * 10 + (c.toNat - '0'.toNat)) 0

/-- `MockServer.simpleConditionEval`: the three supported comparison shapes;
everything else evaluates to `true`. -/
def simpleConditionEval (cs : List Char) : Bool :=
  match parseEqShape cs with
  | some (a, b) => decide (a = b)
  | none =>
    match parseNeqShape cs with
    | some (a, b) => decide (a ≠ b)
    | none =>
      match parseNumShape cs with
      | some (l, op, r) =>
        let ln := natOfDigits l
        let rn := natOfDigits r
        if op = ['>'] then decide (ln > rn)
        else if op = ['<'] then decide (ln < rn)
        else if op = ['>', '='] then decide (ln ≥ rn)
        else if op = ['<', '='] then decide (ln ≤ rn)
        else if op = ['=', '='] then decide (ln = rn)
        else true
      | none => true

/-- `MockServer.evaluateCondition`: substitute `params.`/`query.` references,
reject strings outside the character whitelist (returning `true`), otherwise
evaluate the three supported shapes.  The surrounding `try`/`catch` also
returns `true`; no step of the model can throw, so it is total. -/
def evaluateCondition (ctx : RequestContext) (condition : String) : Bool :=
  let p := processedCondition ctx condition
  if p ≠ [] ∧ (∀ c ∈ p, condCharOk c = true) then simpleConditionEval p
  else true

/-- A substituted condition matches one of the supported shapes of the spec:
quoted-string `===`/`!==` equality, or an integer comparison whose operator is
one of `>`, `<`, `>=`, `<=`, `==`. -/
def isSupportedShape (cs : List Char) : Bool :=
  (parseEqShape cs).isSome || (parseNeqShape cs).isSome ||
  (match parseNumShape cs with
   | some (_, op, _) =>
     op = ['>'] || op = ['<'] || op = ['>', '='] || op = ['<', '='] ||
     op = ['=', '=']
   | none => false)

/-! ### Characters and small string utilities -/

def lbrace : Char := Char.ofNat 123

def rbrace : Char := Char.ofNat 125

/-- JavaScript `String.prototype.split` with a single-character separator:
keeps empty fields, `"" → [""]`. -/
def splitOnCharL (sep : Char) : List Char → List (List Char)
  | [] => [[]]
  | c :: cs =>
    let r := splitOnCharL sep cs
    if c = sep then [] :: r
    else
      match r with
      | h :: t => (c :: h) :: t
      | [] => [[c]]

def splitOnCharStr (sep : Char) (s : String) : List String :=
  (splitOnCharL sep s.data).map String.mk

/-- Substring containment (`String.prototype.includes`). -/
def containsSeq (needle : List Char) : List Char → Bool
  | [] => (stripPre needle []).isSome
  | c :: cs => (stripPre needle (c :: cs)).isSome || containsSeq needle cs

/-! ### JavaScript number formatting and parsing

JavaScript numbers are doubles; every number handled by the engine originates
in a JSON/YAML literal or a length, so exact rationals with finite decimal
expansions model them.  `Number(...)` coercion is modelled on finite decimal
forms (optional sign, digits, fraction, exponent); the exotic accepted forms
(hex/octal/binary literals, `Infinity`) are outside every claim and map to
`none` here. -/

/-- Decimal rendering of a rational whose denominator divides a power of ten
(every number a JSON literal can produce); mirrors how JavaScript prints such
doubles.  Exponential notation for extreme magnitudes is outside every
claim and not modelled. -/
def jsNumToString (q : Rat) : String :=
  let sgn := if q.num < 0 then "-" else ""
  if q.den = 1 then sgn ++ toString q.num.natAbs
  else if 10 ^ 30 % q.den = 0 then
    let m := q.num.natAbs * (10 ^ 30 / q.den)
    let fracs := toString (m % 10 ^ 30)
    let padded := String.mk (List.replicate (30 - fracs.length) '0') ++ fracs
    let trimmed := String.mk ((padded.data.reverse.dropWhile (fun c => c = '0')).reverse)
    sgn ++ toString (m / 10 ^ 30) ++ "." ++ trimmed
  else sgn ++ toString q.num.natAbs ++ "/" ++ toString q.den

/-- `(-1)^neg * digits(ip ++ fp) * 10 ^ (ex - |fp|)` as an exact rational. -/
def mkDecimal (neg : Bool) (ip fp : List Char) (ex : Int) : Rat :=
  let m : Nat := natOfDigits (ip ++ fp)
  let e : Int := ex - (fp.length : Int)
  let n : Int := if neg then -(m : Int) else (m : Int)
  if e ≥ 0 then mkRat (n * ((10 ^ e.toNat : Nat) : Int)) 1
  else mkRat n (10 ^ (-e).toNat)

def jsExpTail (neg : Bool) (ip fp : List Char) : List Char → Option Rat
  | [] => some (mkDecimal neg ip fp 0)
  | c :: r =>
    if c = 'e' ∨ c = 'E' then
      let sgn : Bool × List Char :=
        match r with
        | '-' :: r2 => (true, r2)
        | '+' :: r2 => (false, r2)
        | r2 => (false, r2)
      let ds := sgn.2.takeWhile Char.isDigit
      if ds = [] ∨ sgn.2.dropWhile Char.isDigit ≠ [] then none
      else
        let e : Int := (natOfDigits ds : Int)
        some (mkDecimal neg ip fp (if sgn.1 then -e else e))
    else none

def jsDecParse (cs : List Char) : Option Rat :=
  let sgn : Bool × List Char :=
    match cs with
    | '-' :: r => (true, r)
    | '+' :: r => (false, r)
    | r => (false, r)
  let ip := sgn.2.takeWhile Char.isDigit
  match sgn.2.dropWhile Char.isDigit with
  | '.' :: r2 =>
    let fp := r2.takeWhile Char.isDigit
    if ip = [] ∧ fp = [] then none
    else jsExpTail sgn.1 ip fp (r2.dropWhile Char.isDigit)
  | r1 =>
    if ip = [] then none else jsExpTail sgn.1 ip [] r1

def isJsSpaceChar (c : Char) : Bool :=
  c = ' ' || c = '\t' || c = '\n' || c = '\r' || c.toNat = 11 || c.toNat = 12 ||
  c.toNat = 160 || c.toNat = 0xfeff || c.toNat = 0x2028 || c.toNat = 0x2029

/-- JavaScript `String.prototype.trim`. -/
def jsTrim (s : String) : String :=
  String.mk (((s.data.dropWhile isJsSpaceChar).reverse.dropWhile isJsSpaceChar).reverse)

/-- JavaScript `String.prototype.toLowerCase` (ASCII range). -/
def jsToLower (s : String) : String :=
  String.mk (s.data.map Char.toLower)

/-- JavaScript `Number(string)`: whitespace-trimmed; the empty string is `0`. -/
def jsNumberParse (s : String) : Option Rat :=
  let t := (jsTrim s).data
  if t = [] then some 0 else jsDecParse t

/-! ### Base64 (`Buffer.from(..., 'base64')` / `.toString('base64')`) -/

def b64Alphabet : List Char :=
  "ABCDEFGHIJKLMNOPQRSTUVWXYZabcdefghijklmnopqrstuvwxyz0123456789+/".data

def b64CharOf (n : Nat) : Char := b64Alphabet.getD n 'A'

/-- Canonical base64 encoding of a byte list, with `=` padding. -/
def b64Encode : List Nat → List Char
  | b0 :: b1 :: b2 :: rest =>
    let n := (b0 % 256) * 65536 + (b1 % 256) * 256 + b2 % 256
    b64CharOf (n / 262144) :: b64CharOf (n / 4096 % 64) ::
      b64CharOf (n / 64 % 64) :: b64CharOf (n % 64) :: b64Encode rest
  | [b0, b1] =>
    [b64CharOf (b0 % 256 / 4), b64CharOf (b0 % 4 * 16 + b1 % 256 / 16),
     b64CharOf (b1 % 16 * 4), '=']
  | [b0] => [b64CharOf (b0 % 256 / 4), b64CharOf (b0 % 4 * 16), '=', '=']
  | [] => []

def b64Sextets (cs : List Char) : List Nat :=
  cs.filterMap (fun c =>
    let i := b64Alphabet.indexOf c
    if i < 64 then some i else none)

/-- Forgiving decode: characters outside the alphabet (including `=` and
whitespace) are ignored, complete 4-sextet groups give 3 bytes, leftovers of
3/2 sextets give 2/1 bytes, a lone leftover sextet is dropped (Node). -/
def b64DecodeSextets : List Nat → List Nat
  | a :: b :: c :: d :: rest =>
    (a * 4 + b / 16) :: (b % 16 * 16 + c / 4) :: (c % 4 * 64 + d) ::
      b64DecodeSextets rest
  | [a, b, c] => [a * 4 + b / 16, b % 16 * 16 + c / 4]
  | [a, b] => [a * 4 + b / 16]
  | _ => []

def b64Decode (cs : List Char) : List Nat := b64DecodeSextets (b64Sextets cs)

/-! ### The template engine (`TemplateEngine`) -/

/-- The runtime type of a JSON value, as it determines the prototype chain a
JavaScript property read `current[key]` traverses after the own properties:
`Object.prototype` for plain objects, `Array.prototype` (then
`Object.prototype`) for arrays, and the boxed `String.prototype` /
`Number.prototype` / `Boolean.prototype` chains for primitives. -/
inductive JsType where
  | objT
  | arrT
  | strT
  | numT
  | boolT

/-- A value the `getNestedProperty` walk can hold: a JSON data value, or a
*host* value — a prototype-inherited member (`Object.prototype.toString`,
`Array.prototype.push`, `Number.prototype.toFixed`, the `__proto__` object,
…) reached by reading the named key on a value of the named type.  Host
values are opaque here: their `String(...)` rendering and their own
properties are engine-supplied (`Oracle.hostString` / `Oracle.hostWalk`),
never invented by the model. -/
inductive PropVal where
  | json : Val → PropVal
  | host : JsType → String → PropVal

/-- String-keyed readable members of `Object.prototype`. -/
def objProtoNames : List String :=
  ["constructor", "hasOwnProperty", "isPrototypeOf", "propertyIsEnumerable",
   "toLocaleString", "toString", "valueOf", "__defineGetter__",
   "__defineSetter__", "__lookupGetter__", "__lookupSetter__", "__proto__"]

/-- String-keyed members of `Array.prototype` (across Node versions). -/
def arrayProtoNames : List String :=
  ["at", "concat", "copyWithin", "entries", "every", "fill", "filter",
   "find", "findIndex", "findLast", "findLastIndex", "flat", "flatMap",
   "forEach", "includes", "indexOf", "join", "keys", "lastIndexOf", "map",
   "pop", "push", "reduce", "reduceRight", "reverse", "shift", "slice",
   "some", "sort", "splice", "toLocaleString", "toReversed", "toSorted",
   "toSpliced", "toString", "unshift", "values", "with", "constructor"]

/-- String-keyed members of `String.prototype` (across Node versions). -/
def stringProtoNames : List String :=
  ["at", "charAt", "charCodeAt", "codePointAt", "concat", "endsWith",
   "includes", "indexOf", "isWellFormed", "lastIndexOf", "localeCompare",
   "match", "matchAll", "normalize", "padEnd", "padStart", "repeat",
   "replace", "replaceAll", "search", "slice", "split", "startsWith",
   "substr", "substring", "toLocaleLowerCase", "toLocaleUpperCase",
   "toLowerCase", "toString", "toUpperCase", "toWellFormed", "trim",
   "trimEnd", "trimStart", "valueOf", "anchor", "big", "blink", "bold",
   "fixed", "fontcolor", "fontsize", "italics", "link", "small", "strike",
   "sub", "sup", "constructor"]

/-- String-keyed members of `Number.prototype`. -/
def numberProtoNames : List String :=
  ["constructor", "toExponential", "toFixed", "toLocaleString",
   "toPrecision", "toString", "valueOf"]

/-- String-keyed members of `Boolean.prototype`. -/
def booleanProtoNames : List String :=
  ["constructor", "toString", "valueOf"]

/-- Whether `key` is prototype-inherited on a value of the given type.  The
name lists union the members across Node versions, so they *over-approximate*
any single engine: when `protoName` is `false`, the read is `undefined` in
every engine; when it is `true`, the model yields an opaque `PropVal.host`
value rather than guessing the engine's member. -/
def protoName : JsType → String → Bool
  | .objT, k => objProtoNames.contains k
  | .arrT, k => arrayProtoNames.contains k || objProtoNames.contains k
  | .strT, k => stringProtoNames.contains k || objProtoNames.contains k
  | .numT, k => numberProtoNames.contains k || objProtoNames.contains k
  | .boolT, k => booleanProtoNames.contains k || objProtoNames.contains k

/-- Environment for the engine's nondeterministic/external helpers: the
`faker` library object graph (navigation outcome for a dotted path with
arguments; `none` models lookup/invocation failure), `faker.string.uuid`,
`faker.number.int`, `faker.datatype.boolean`, the clock, the synthetic
CSV rows, and the engine's behaviour on host (prototype-inherited) values:
`hostWalk t k ks` continues the `getNestedProperty` loop from the inherited
member `k` of a `t`-typed value through the remaining keys `ks` (it may
throw — e.g. the poisoned `caller`/`arguments` accessors), and
`hostString t k` is `String(...)` of that member (e.g.
`"function toString() \x7b [native code] \x7d"`). -/
structure Oracle where
  fakerEval : String → Option String
  uuid : String
  randomInt : Int → Int → Int
  randomBool : Bool
  nowIso : String
  pastIso : String
  futureIso : String
  recentIso : String
  nowMillis : Nat
  csvRow : Nat → String × String × String
  hostWalk : JsType → String → List String → Except Unit (Option PropVal)
  hostString : JsType → String → String

/-- Truthiness of a JSON value (`NaN` is not representable here). -/
def jsFalsy : Val → Bool
  | .null => true
  | .bool b => !b
  | .num q => decide (q = 0)
  | .str s => decide (s = "")
  | _ => false

mutual

/-- JavaScript `String(v)` for JSON values: arrays join their elements with
commas (`null` joining as the empty string), objects print as
`[object Object]`. -/
def jsString : Val → String
  | .null => "null"
  | .bool true => "true"
  | .bool false => "false"
  | .num q => jsNumToString q
  | .str s => s
  | .arr xs => jsArrJoin xs
  | .obj _ => "[object Object]"

def jsArrJoin : List Val → String
  | [] => ""
  | [.null] => ""
  | [v] => jsString v
  | .null :: vs => "," ++ jsArrJoin vs
  | v :: vs => jsString v ++ "," ++ jsArrJoin vs

end

/-- A canonical array-index string (`"0"`, `"1"`, ..., no leading zeros). -/
def toCanonicalIndex (s : String) : Option Nat :=
  match s.data with
  | [] => none
  | ['0'] => some 0
  | c :: cs =>
    if c.isDigit ∧ ¬c = '0' ∧ cs.all Char.isDigit then some (natOfDigits (c :: cs))
    else none

/-- One step of JavaScript property access `current[key]` on a JSON value:
reading from `null` throws (`.error`); objects expose their own fields,
arrays and strings expose `length` and canonical indices; a key absent
from the own properties resolves along the prototype chain — `protoName`
tells whether it hits an inherited member, which the model keeps as an
opaque `PropVal.host` value — and is `undefined` only past the chain's
end. -/
def jsIndex : Val → String → Except Unit (Option PropVal)
  | .null, _ => .error ()
  | .obj fs, k =>
    match assocFind fs k with
    | some v => .ok (some (.json v))
    | none => .ok (if protoName .objT k then some (.host .objT k) else none)
  | .arr xs, k =>
    if k = "length" then .ok (some (.json (.num (xs.length : Nat))))
    else
      match (toCanonicalIndex k).bind (fun i => xs.get? i) with
      | some v => .ok (some (.json v))
      | none => .ok (if protoName .arrT k then some (.host .arrT k) else none)
  | .str s, k =>
    if k = "length" then .ok (some (.json (.num (s.length : Nat))))
    else
      match (toCanonicalIndex k).bind (fun i => s.data.get? i) with
      | some c => .ok (some (.json (.str (String.mk [c]))))
      | none => .ok (if protoName .strT k then some (.host .strT k) else none)
  | .num _, k => .ok (if protoName .numT k then some (.host .numT k) else none)
  | .bool _, k => .ok (if protoName .boolT k then some (.host .boolT k) else none)

/-- The `for (const key of keys)` walk of `getNestedProperty`: stop with
`undefined` when `current[key] === undefined`, throw when a property of
`null` is read.  Once `current` is a host value (a prototype-inherited
function or prototype object), the remaining reads are engine behaviour and
the walk defers to `Oracle.hostWalk`. -/
def getNestedWalk (o : Oracle) : PropVal → List String → Except Unit (Option PropVal)
  | cur, [] => .ok (some cur)
  | .host t k0, k :: ks => o.hostWalk t k0 (k :: ks)
  | .json v, k :: ks =>
    match jsIndex v k with
    | .error e => .error e
    | .ok none => .ok none
    | .ok (some pv) => getNestedWalk o pv ks

def isObjectLike : Val → Bool
  | .obj _ => true
  | .arr _ => true
  | _ => false

/-- `TemplateEngine.getNestedProperty`: `undefined` for a missing body or a
non-object body, then the dotted-key walk.  `.error` models the `TypeError`
raised when an intermediate value is `null` (or thrown inside a host
read). -/
def getNestedProperty (o : Oracle) (body : Option Val) (path : String) :
    Except Unit (Option PropVal) :=
  match body with
  | none => .ok none
  | some v =>
    if isObjectLike v then getNestedWalk o (.json v) (splitOnCharStr '.' path)
    else .ok none

/-! ### A small JSON parser (`JSON.parse`)

Fuel-driven recursive descent over the JSON grammar (strings support the
standard escapes except `\uXXXX` surrogate pairing, which no claim touches).
`none` models a thrown `SyntaxError`. -/

def jsonWs (cs : List Char) : List Char :=
  cs.dropWhile (fun c => c = ' ' || c = '\t' || c = '\n' || c = '\r')

def jsonStringBody : Nat → List Char → Option (List Char × List Char)
  | 0, _ => none
  | _ + 1, [] => none
  | fuel + 1, c :: cs =>
    if c = '"' then some ([], cs)
    else if c = '\\' then
      match cs with
      | e :: cs2 =>
        let dec : Option (Char × List Char) :=
          if e = '"' then some ('"', cs2)
          else if e = '\\' then some ('\\', cs2)
          else if e = '/' then some ('/', cs2)
          else if e = 'b' then some (Char.ofNat 8, cs2)
          else if e = 'f' then some (Char.ofNat 12, cs2)
          else if e = 'n' then some ('\n', cs2)
          else if e = 'r' then some ('\r', cs2)
          else if e = 't' then some ('\t', cs2)
          else if e = 'u' then
            match cs2 with
            | h1 :: h2 :: h3 :: h4 :: cs3 =>
              if [h1, h2, h3, h4].all (fun h => h.isDigit || ('a' ≤ h ∧ h ≤ 'f') || ('A' ≤ h ∧ h ≤ 'F')) then
                let hv := fun (h : Char) =>
                  if h.isDigit then h.toNat - '0'.toNat
                  else if 'a' ≤ h then h.toNat - 'a'.toNat + 10
                  else h.toNat - 'A'.toNat + 10
                some (Char.ofNat (hv h1 * 4096 + hv h2 * 256 + hv h3 * 16 + hv h4), cs3)
              else none
            | _ => none
          else none
        match dec with
        | some (ch, rest) => (jsonStringBody fuel rest).map (fun p => (ch :: p.1, p.2))
        | none => none
      | [] => none
    else (jsonStringBody fuel cs).map (fun p => (c :: p.1, p.2))

def jsonNumber (cs : List Char) : Option (Rat × List Char) :=
  let sgn : Bool × List Char :=
    match cs with
    | '-' :: r => (true, r)
    | r => (false, r)
  let ip := sgn.2.takeWhile Char.isDigit
  let intOk :=
    match ip with
    | [] => false
    | ['0'] => true
    | c :: _ => decide (¬c = '0')
  if intOk = false then none
  else
    let r1 := sgn.2.dropWhile Char.isDigit
    let fracP : Option (List Char × List Char) :=
      match r1 with
      | '.' :: r2 =>
        let fp := r2.takeWhile Char.isDigit
        if fp = [] then none else some (fp, r2.dropWhile Char.isDigit)
      | _ => some ([], r1)
    match fracP with
    | none => none
    | some (fp, r3) =>
      match r3 with
      | c :: r4 =>
        if c = 'e' ∨ c = 'E' then
          let es : Bool × List Char :=
            match r4 with
            | '-' :: r5 => (true, r5)
            | '+' :: r5 => (false, r5)
            | r5 => (false, r5)
          let ds := es.2.takeWhile Char.isDigit
          if ds = [] then none
          else
            let e : Int := (natOfDigits ds : Int)
            some (mkDecimal sgn.1 ip fp (if es.1 then -e else e), es.2.dropWhile Char.isDigit)
        else some (mkDecimal sgn.1 ip fp 0, r3)
      | [] => some (mkDecimal sgn.1 ip fp 0, [])

mutual

def jsonVal : Nat → List Char → Option (Val × List Char)
  | 0, _ => none
  | fuel + 1, cs =>
    match jsonWs cs with
    | 'n' :: 'u' :: 'l' :: 'l' :: r => some (.null, r)
    | 't' :: 'r' :: 'u' :: 'e' :: r => some (.bool true, r)
    | 'f' :: 'a' :: 'l' :: 's' :: 'e' :: r => some (.bool false, r)
    | '"' :: r => (jsonStringBody (r.length + 1) r).map (fun p => (.str (String.mk p.1), p.2))
    | '[' :: r =>
      (match jsonWs r with
       | ']' :: r2 => some (.arr [], r2)
       | r2 => (jsonElems fuel r2).map (fun p => (.arr p.1, p.2)))
    | c :: r =>
      if c = lbrace then
        match jsonWs r with
        | c2 :: r2 =>
          if c2 = rbrace then some (.obj [], r2)
          else (jsonMembers fuel (c2 :: r2)).map (fun p => (.obj p.1, p.2))
        | [] => none
      else (jsonNumber (c :: r)).map (fun p => (.num p.1, p.2))
    | [] => none

def jsonElems : Nat → List Char → Option (List Val × List Char)
  | 0, _ => none
  | fuel + 1, cs =>
    match jsonVal fuel cs with
    | some (v, r) =>
      match jsonWs r with
      | ',' :: r2 => (jsonElems fuel r2).map (fun p => (v :: p.1, p.2))
      | ']' :: r2 => some ([v], r2)
      | _ => none
    | none => none

def jsonMembers : Nat → List Char → Option (List (String × Val) × List Char)
  | 0, _ => none
  | fuel + 1, cs =>
    match jsonWs cs with
    | '"' :: r =>
      match jsonStringBody (r.length + 1) r with
      | some (k, r2) =>
        match jsonWs r2 with
        | ':' :: r3 =>
          match jsonVal fuel r3 with
          | some (v, r4) =>
            match jsonWs r4 with
            | ',' :: r5 => (jsonMembers fuel r5).map (fun p => ((String.mk k, v) :: p.1, p.2))
            | c :: r5 =>
              if c = rbrace then some ([(String.mk k, v)], r5) else none
            | [] => none
          | none => none
        | _ => none
      | none => none
    | _ => none

end

/-- `JSON.parse` on a whole string: a single value with only trailing
whitespace after it. -/
def jsonParse (s : String) : Option Val :=
  match jsonVal (s.data.length + 2) s.data with
  | some (v, r) => if jsonWs r = [] then some v else none
  | none => none

/-! ### Binary payload generators (`TemplateEngine.generate*Buffer`) -/

def excelHeaderBytes : List Nat :=
  [0x50, 0x4B, 0x03, 0x04, 0x14, 0x00, 0x06, 0x00,
   0x08, 0x00, 0x00, 0x00, 0x21, 0x00, 0x00, 0x00]

/-- UTF-8 bytes of one character. -/
def utf8Char (c : Char) : List Nat :=
  let n := c.toNat
  if n < 0x80 then [n]
  else if n < 0x800 then [0xC0 + n / 64, 0x80 + n % 64]
  else if n < 0x10000 then [0xE0 + n / 4096, 0x80 + n / 64 % 64, 0x80 + n % 64]
  else [0xF0 + n / 262144, 0x80 + n / 4096 % 64, 0x80 + n / 64 % 64, 0x80 + n % 64]

/-- UTF-8 bytes of a string (`Buffer.from(string)`); all generator content is
ASCII so each character is one byte. -/
def utf8Bytes (s : String) : List Nat :=
  s.data.foldr (fun c acc => utf8Char c ++ acc) []

def generateExcelBuffer : String :=
  String.mk (b64Encode (excelHeaderBytes ++
    utf8Bytes "Mock Excel Content - Replace with real Excel generation"))

def pdfContentText : String :=
  "%PDF-1.4\n1 0 obj\n<<\n/Type /Catalog\n/Pages 2 0 R\n>>\nendobj\n\n" ++
  "2 0 obj\n<<\n/Type /Pages\n/Kids [3 0 R]\n/Count 1\n>>\nendobj\n\n" ++
  "3 0 obj\n<<\n/Type /Page\n/Parent 2 0 R\n/MediaBox [0 0 612 792]\n/Contents 4 0 R\n>>\nendobj\n\n" ++
  "4 0 obj\n<<\n/Length 44\n>>\nstream\nBT\n/F1 12 Tf\n100 700 Td\n(Mock PDF Content) Tj\nET\nendstream\nendobj\n\n" ++
  "xref\n0 5\n0000000000 65535 f \n0000000009 00000 n \n0000000058 00000 n \n" ++
  "0000000115 00000 n \n0000000206 00000 n \ntrailer\n<<\n/Size 5\n/Root 1 0 R\n>>\nstartxref\n301\n%%EOF"

def generatePDFBuffer : String := String.mk (b64Encode (utf8Bytes pdfContentText))

def pngBytes : List Nat :=
  [0x89, 0x50, 0x4E, 0x47, 0x0D, 0x0A, 0x1A, 0x0A,
   0x00, 0x00, 0x00, 0x0D, 0x49, 0x48, 0x44, 0x52,
   0x00, 0x00, 0x00, 0x01, 0x00, 0x00, 0x00, 0x01,
   0x08, 0x06, 0x00, 0x00, 0x00, 0x1F, 0x15, 0xC4,
   0x89, 0x00, 0x00, 0x00, 0x0A, 0x49, 0x44, 0x41,
   0x54, 0x78, 0x9C, 0x63, 0x00, 0x01, 0x00, 0x00,
   0x05, 0x00, 0x01, 0x0D, 0x0A, 0x2D, 0xB4, 0x00,
   0x00, 0x00, 0x00, 0x49, 0x45, 0x4E, 0x44, 0xAE,
   0x42, 0x60, 0x82]

def generateImageBuffer : String := String.mk (b64Encode pngBytes)

def zipBytes : List Nat :=
  [0x50, 0x4B, 0x03, 0x04, 0x14, 0x00, 0x00, 0x00,
   0x08, 0x00, 0x00, 0x00, 0x00, 0x00, 0x00, 0x00,
   0x00, 0x00, 0x00, 0x00, 0x00, 0x00, 0x00, 0x00,
   0x00, 0x00, 0x50, 0x4B, 0x05, 0x06, 0x00, 0x00,
   0x00, 0x00, 0x00, 0x00, 0x00, 0x00, 0x00, 0x00,
   0x00, 0x00, 0x00, 0x00, 0x00, 0x00, 0x00, 0x00]

def generateZipBuffer : String := String.mk (b64Encode zipBytes)

def generateCSVBuffer (o : Oracle) : String :=
  let row := fun (i : Nat) =>
    let r := o.csvRow i
    toString i ++ ",\"" ++ r.1 ++ "\",\"" ++ r.2.1 ++ "\",\"" ++ r.2.2 ++ "\""
  String.mk (b64Encode (utf8Bytes
    ("id,name,email,created_at\n" ++ row 1 ++ "\n" ++ row 2 ++ "\n" ++ row 3)))

/-! ### Expression evaluation (`TemplateEngine.evaluateExpression`) -/

/-- The `catch` branch of `evaluateFakerExpression` re-wraps the expression
in braces; success stringifies the generated value (delegated to the
oracle, which models the external faker object graph and argument parsing). -/
def evaluateFakerExpression (o : Oracle) (expression : String) : String :=
  match o.fakerEval (String.mk ((stripPre "faker.".data expression.data).getD [])) with
  | some s => s
  | none => String.mk (lbrace :: lbrace :: (expression.data ++ [rbrace, rbrace]))

/-- JavaScript `parseInt` after `trim`: optional sign then leading digits;
`none` is `NaN`. -/
def jsParseInt (s : String) : Option Int :=
  match (jsTrim s).data with
  | '-' :: r =>
    let ds := r.takeWhile Char.isDigit
    if ds = [] then none else some (-(natOfDigits ds : Int))
  | '+' :: r =>
    let ds := r.takeWhile Char.isDigit
    if ds = [] then none else some ((natOfDigits ds : Int))
  | r =>
    let ds := r.takeWhile Char.isDigit
    if ds = [] then none else some ((natOfDigits ds : Int))

/-- `x || d` over a parsed integer: `NaN` and `0` are falsy. -/
def jsOrInt (x : Option Int) (d : Int) : Int :=
  match x with
  | some n => if n = 0 then d else n
  | none => d

/-- First match of `/random\.number\(([^)]+)\)/`: scan for the literal call
with a non-empty argument text before a closing parenthesis. -/
def findRandArgsF : Nat → List Char → Option (List Char)
  | 0, _ => none
  | _ + 1, [] => none
  | fuel + 1, c :: cs =>
    match stripPre "random.number(".data (c :: cs) with
    | some rest =>
      let body := rest.takeWhile (fun x => decide (¬x = ')'))
      match rest.dropWhile (fun x => decide (¬x = ')')) with
      | ')' :: _ => if body = [] then findRandArgsF fuel cs else some body
      | _ => findRandArgsF fuel cs
    | none => findRandArgsF fuel cs

def evaluateRandomExpression (o : Oracle) (expression : String) : String :=
  if expression = "random.uuid" then o.uuid
  else if (stripPre "random.number(".data expression.data).isSome then
    match findRandArgsF (expression.data.length + 1) expression.data with
    | some args =>
      let parts := (splitOnCharL ',' args).map (fun p => jsParseInt (String.mk p))
      let minV := jsOrInt (parts.getD 0 none) 0
      let maxV := jsOrInt (parts.getD 1 none) 100
      jsNumToString ((o.randomInt minV maxV : Int) : Rat)
    | none =>
      if expression = "random.boolean" then (if o.randomBool then "true" else "false")
      else expression
  else if expression = "random.boolean" then (if o.randomBool then "true" else "false")
  else expression

def evaluateDateExpression (o : Oracle) (expression : String) : String :=
  if expression = "date.now" then o.nowIso
  else if expression = "date.past" then o.pastIso
  else if expression = "date.future" then o.futureIso
  else if expression = "date.recent" then o.recentIso
  else if expression = "date.timestamp" then toString o.nowMillis
  else expression

def evaluateBinaryExpression (o : Oracle) (expression : String) : String :=
  if expression = "binary.excel" then generateExcelBuffer
  else if expression = "binary.pdf" then generatePDFBuffer
  else if expression = "binary.image" then generateImageBuffer
  else if expression = "binary.zip" then generateZipBuffer
  else if expression = "binary.csv" then generateCSVBuffer o
  else expression

/-- `TemplateEngine.evaluateExpression`: dispatch on the namespace of the
expression; every failure path is caught and degrades to text.  The
JavaScript `String(...)` coercion applied by the `replace` callback to the
non-string `body` results is folded in here. -/
def evaluateExpression (o : Oracle) (ctx : RequestContext) (expression : String) : String :=
  match stripPre "params.".data expression.data with
  | some rest =>
    (match assocFind ctx.params (String.mk rest) with
     | some v => v
     | none => "")
  | none =>
  match stripPre "query.".data expression.data with
  | some rest =>
    (match assocFind ctx.query (String.mk rest) with
     | some (.one s) => s
     | some (.many (s :: _)) => s
     | some (.many []) => ""
     | none => "")
  | none =>
  match stripPre "body.".data expression.data with
  | some rest =>
    (match getNestedProperty o ctx.body (String.mk rest) with
     | .error _ => expression
     | .ok none => ""
     | .ok (some (.json v)) => if jsFalsy v then "" else jsString v
     | .ok (some (.host t k)) => o.hostString t k)
  | none =>
  match stripPre "headers.".data expression.data with
  | some rest =>
    (match assocFind ctx.headers (jsToLower (String.mk rest)) with
     | some v => v
     | none => "")
  | none =>
  if (stripPre "faker.".data expression.data).isSome then
    evaluateFakerExpression o expression
  else if (stripPre "random.".data expression.data).isSome then
    evaluateRandomExpression o expression
  else if (stripPre "date.".data expression.data).isSome then
    evaluateDateExpression o expression
  else if (stripPre "binary.".data expression.data).isSome then
    evaluateBinaryExpression o expression
  else expression

/-! ### String templates (`TemplateEngine.processStringTemplate`) -/

/-- The global replace of `/\{\{([^}]+)\}\}/g`: each placeholder body is
trimmed, evaluated, and substituted; returns the substituted text and
whether any replacement happened. -/
def templateScanF (o : Oracle) (ctx : RequestContext) : Nat → List Char → List Char × Bool
  | 0, cs => (cs, false)
  | _ + 1, [] => ([], false)
  | fuel + 1, c1 :: rest =>
    let emitOne :=
      let r := templateScanF o ctx fuel rest
      (c1 :: r.1, r.2)
    if c1 = lbrace then
      match rest with
      | c2 :: rest2 =>
        if c2 = lbrace then
          let body := rest2.takeWhile (fun c => decide (¬c = rbrace))
          match rest2.dropWhile (fun c => decide (¬c = rbrace)) with
          | a1 :: a2 :: after2 =>
            if body ≠ [] ∧ a1 = rbrace ∧ a2 = rbrace then
              let repl := evaluateExpression o ctx (jsTrim (String.mk body))
              let r := templateScanF o ctx fuel after2
              (repl.data ++ r.1, true)
            else emitOne
          | _ => emitOne
        else emitOne
      | [] => emitOne
    else emitOne

def startsBB (cs : List Char) : Bool :=
  match cs with
  | a :: b :: _ => a = lbrace && b = lbrace
  | _ => false

def endsBB (cs : List Char) : Bool :=
  match cs.reverse with
  | a :: b :: _ => a = rbrace && b = rbrace
  | _ => false

/-- `{{` with at least one character after it (a candidate non-empty body). -/
def containsBBNonEnd : List Char → Bool
  | a :: b :: c :: r => (a = lbrace && b = lbrace) || containsBBNonEnd (b :: c :: r)
  | _ => false

/-- `template.match(/\{\{[^}]+\}\}$/)`: the string ends with a complete
placeholder whose body is non-empty and free of `}`. -/
def endsWithPlaceholder (cs : List Char) : Bool :=
  match cs.reverse with
  | b1 :: b2 :: rest =>
    if b1 = rbrace ∧ b2 = rbrace then
      containsBBNonEnd (rest.takeWhile (fun c => decide (¬c = rbrace))).reverse
    else false
  | _ => false

def startsCh (cs : List Char) (c : Char) : Bool :=
  match cs with
  | a :: _ => a = c
  | _ => false

def endsCh (cs : List Char) (c : Char) : Bool :=
  match cs.reverse with
  | a :: _ => a = c
  | _ => false

def coerceBoolJson (s : String) : Val :=
  if s = "true" then .bool true
  else if s = "false" then .bool false
  else if (startsCh s.data lbrace ∧ endsCh s.data rbrace) ∨
          (startsCh s.data '[' ∧ endsCh s.data ']') then
    match jsonParse s with
    | some v => v
    | none => .str s
  else .str s

/-- The type-coercion ladder applied to a fully substituted single-placeholder
string: number, then `true`/`false`, then JSON-shaped structured parse, else
keep the string (`JSON.parse` failure is caught). -/
def coerceResult (s : String) : Val :=
  match jsNumberParse s with
  | some q =>
    if jsTrim s = "" then coerceBoolJson s else .num q
  | none => coerceBoolJson s

/-- `TemplateEngine.processStringTemplate`. -/
def processStringTemplate (o : Oracle) (ctx : RequestContext) (template : String) : Val :=
  if containsSeq [lbrace, lbrace] template.data = false then .str template
  else
    let scan := templateScanF o ctx template.data.length template.data
    if scan.2 ∧ startsBB template.data ∧ endsBB template.data ∧
       endsWithPlaceholder template.data then
      coerceResult (String.mk scan.1)
    else .str (String.mk scan.1)

mutual

/-- `TemplateEngine.processTemplate`: strings are expanded, arrays and
objects are mapped recursively preserving shape and order, other scalars
pass through. -/
def processTemplate (o : Oracle) (ctx : RequestContext) : Val → Val
  | .str s => processStringTemplate o ctx s
  | .arr xs => .arr (processTemplateList o ctx xs)
  | .obj fs => .obj (processTemplateFields o ctx fs)
  | v => v

def processTemplateList (o : Oracle) (ctx : RequestContext) : List Val → List Val
  | [] => []
  | v :: vs => processTemplate o ctx v :: processTemplateList o ctx vs

def processTemplateFields (o : Oracle) (ctx : RequestContext) :
    List (String × Val) → List (String × Val)
  | [] => []
  | (k, v) :: fs => (k, processTemplate o ctx v) :: processTemplateFields o ctx fs

end

/-! ### Request dispatch: encoding the response (`MockServer.handleRequest`) -/

/-- `MockEndpoint` from `types.ts`. -/
structure MockEndpoint where
  status : Option Nat
  delay : Option Nat
  response : Val
  headers : Option (List (String × String))
  condition : Option String

/-- What the dispatcher hands back to the HTTP layer: raw bytes or a
JSON-encoded value, each with a status code and the headers set so far. -/
inductive ResponseOut where
  | binary (status : Nat) (headers : List (String × String)) (bytes : List Nat)
  | json (status : Nat) (headers : List (String × String)) (v : Val)

/-- `MockServer.isBinaryResponse`: longer than 50 characters and a fixed
point of base64 decode/re-encode. -/
def isBinaryResponse (resp : String) : Bool :=
  decide (resp.length > 50) &&
  decide (String.mk (b64Encode (b64Decode resp.data)) = resp)

/-- `MockServer.getBinaryContentType`, keyed on which `binary.<kind>`
placeholder occurs in the original template text. -/
def getBinaryContentType (originalResponse : String) : String :=
  if containsSeq "\x7b\x7bbinary.excel\x7d\x7d".data originalResponse.data then
    "application/vnd.openxmlformats-officedocument.spreadsheetml.sheet"
  else if containsSeq "\x7b\x7bbinary.pdf\x7d\x7d".data originalResponse.data then
    "application/pdf"
  else if containsSeq "\x7b\x7bbinary.image\x7d\x7d".data originalResponse.data then
    "image/png"
  else if containsSeq "\x7b\x7bbinary.zip\x7d\x7d".data originalResponse.data then
    "application/zip"
  else if containsSeq "\x7b\x7bbinary.csv\x7d\x7d".data originalResponse.data then
    "text/csv"
  else "application/octet-stream"

/-- Any of the five `binary.<kind>` markers occurs in the template text. -/
def hasBinaryMarker (originalResponse : String) : Bool :=
  containsSeq "\x7b\x7bbinary.excel\x7d\x7d".data originalResponse.data ||
  containsSeq "\x7b\x7bbinary.pdf\x7d\x7d".data originalResponse.data ||
  containsSeq "\x7b\x7bbinary.image\x7d\x7d".data originalResponse.data ||
  containsSeq "\x7b\x7bbinary.zip\x7d\x7d".data originalResponse.data ||
  containsSeq "\x7b\x7bbinary.csv\x7d\x7d".data originalResponse.data

/-- `endpoint.status || 200`: absent (and the falsy `0`) default to 200. -/
def statusCodeOf (e : MockEndpoint) : Nat :=
  match e.status with
  | some s => if s = 0 then 200 else s
  | none => 200

/-- Node's `res.getHeader` is case-insensitive. -/
def headersHaveContentType (hs : List (String × String)) : Bool :=
  hs.any (fun p => jsToLower p.1 = "content-type")

/-- The `endpoint.response as string` cast in the binary branch; an expansion
can only be a string when the template itself is one. -/
def templateAsString : Val → String
  | .str s => s
  | _ => ""

/-- `typeof v === 'object'` (arrays and `null` included). -/
def isJsObjectType : Val → Bool
  | .obj _ => true
  | .arr _ => true
  | .null => true
  | _ => false

/-- Steps 5–7 of the dispatch pipeline for one resolved endpoint: set the
status and the declared custom headers, expand the template, then either
send decoded base64 bytes (with a sniffed content type when none was
declared) or JSON-encode the expanded value. -/
def dispatchEncode (o : Oracle) (ctx : RequestContext) (e : MockEndpoint) : ResponseOut :=
  let statusCode := statusCodeOf e
  let custom := e.headers.getD []
  let processed := processTemplate o ctx e.response
  match processed with
  | .str s =>
    if isBinaryResponse s then
      let hs :=
        if headersHaveContentType custom then custom
        else custom ++ [("Content-Type", getBinaryContentType (templateAsString e.response))]
      .binary statusCode hs (b64Decode s.data)
    else
      let hs :=
        if headersHaveContentType custom then custom
        else custom ++ [("Content-Type", "text/plain")]
      .json statusCode hs (.str s)
  | v =>
    let hs :=
      if headersHaveContentType custom then custom
      else custom ++
        [("Content-Type", if isJsObjectType v then "application/json" else "text/plain")]
    .json statusCode hs v

/-- Steps 3–7: the condition gate (404 `Condition not met` when it fails)
followed by the encode stage.  The artificial delay changes no observable
output and is not modelled. -/
def handleRequest (o : Oracle) (ctx : RequestContext) (e : MockEndpoint) : ResponseOut :=
  match e.condition with
  | some c =>
    if evaluateCondition ctx c then dispatchEncode o ctx e
    else .json 404 [] (.obj [("error", .str "Condition not met")])
  | none => dispatchEncode o ctx e

/-! ### A JavaScript regular-expression engine

`RouteHandler.parseRoute` builds a pattern *string* and compiles it with
`new RegExp`; the route claims depend on how that string is interpreted, so
the engine is modelled: an AST, a parser for the pattern text, and a
backtracking matcher with numbered capture groups.  The model covers the
core constructs (literals, escapes, `.`, character classes, `^`/`$`,
alternation, capturing and `(?:` groups, greedy and lazy `*`/`+`/`?`/`{m,n}`
quantifiers); the exotic rest (lookarounds, backreferences, `\u` escapes,
word-boundary assertions) is rejected by the parser, as is an unterminated
character class (a JavaScript `SyntaxError`). -/

inductive ClsItem where
  | ch (c : Char)
  | range (lo hi : Char)
  | dig | ndig | wrd | nwrd | spc | nspc

inductive Quant where
  | one
  | star (lazy : Bool)
  | plus (lazy : Bool)
  | opt (lazy : Bool)
  | rep (lo : Nat) (hi : Option Nat) (lazy : Bool)

mutual
inductive RAtom where
  | lit (c : Char)
  | dot
  | cls (neg : Bool) (items : List ClsItem)
  | anchorStart
  | anchorEnd
  | group (idx : Option Nat) (alts : List (List RPiece))
inductive RPiece where
  | mk (atom : RAtom) (quant : Quant)
end

/-- A compiled regular expression: alternatives and the capture-group count. -/
structure JsRegex where
  alts : List (List RPiece)
  ncaps : Nat

def clsItemMatch (i : ClsItem) (c : Char) : Bool :=
  match i with
  | .ch x => c = x
  | .range lo hi => lo ≤ c ∧ c ≤ hi
  | .dig => c.isDigit
  | .ndig => !c.isDigit
  | .wrd => isWordChar c
  | .nwrd => !isWordChar c
  | .spc => isJsSpaceChar c
  | .nspc => !isJsSpaceChar c

/-- `.` matches everything but line terminators. -/
def dotMatch (c : Char) : Bool :=
  !(c = '\n' || c = '\r' || c.toNat = 0x2028 || c.toNat = 0x2029)

def escAtomChar (e : Char) : Char :=
  if e = 'n' then '\n'
  else if e = 't' then '\t'
  else if e = 'r' then '\r'
  else if e = 'f' then Char.ofNat 12
  else if e = 'v' then Char.ofNat 11
  else if e = '0' then Char.ofNat 0
  else e

def escClsShort (e : Char) : Option ClsItem :=
  if e = 'd' then some .dig
  else if e = 'D' then some .ndig
  else if e = 'w' then some .wrd
  else if e = 'W' then some .nwrd
  else if e = 's' then some .spc
  else if e = 'S' then some .nspc
  else none

/-- Items of a character class up to the closing `]`; `none` when the class
is unterminated or out-of-range. -/
def parseClsItemsF : Nat → List Char → Option (List ClsItem × List Char)
  | 0, _ => none
  | _ + 1, [] => none
  | fuel + 1, c :: cs =>
    if c = ']' then some ([], cs)
    else if c = '\\' then
      match cs with
      | e :: cs2 =>
        let item := (escClsShort e).getD (.ch (escAtomChar e))
        (parseClsItemsF fuel cs2).map (fun p => (item :: p.1, p.2))
      | [] => none
    else
      match cs with
      | '-' :: d :: cs2 =>
        if d = ']' then
          (parseClsItemsF fuel ('-' :: d :: cs2)).map (fun p => (ClsItem.ch c :: p.1, p.2))
        else if d = '\\' then
          (parseClsItemsF fuel ('-' :: d :: cs2)).map (fun p => (ClsItem.ch c :: p.1, p.2))
        else if c ≤ d then
          (parseClsItemsF fuel cs2).map (fun p => (ClsItem.range c d :: p.1, p.2))
        else none
      | _ => (parseClsItemsF fuel cs).map (fun p => (ClsItem.ch c :: p.1, p.2))

/-- `{m}`, `{m,}`, `{m,n}` bodies (after the opening brace); `none` means the
brace is not a quantifier and stays literal. -/
def parseRepBody (cs : List Char) : Option (Nat × Option Nat × List Char) :=
  let ds := cs.takeWhile Char.isDigit
  if ds = [] then none
  else
    let lo := natOfDigits ds
    match cs.dropWhile Char.isDigit with
    | c :: r =>
      if c = rbrace then some (lo, some lo, r)
      else if c = ',' then
        let ds2 := r.takeWhile Char.isDigit
        match r.dropWhile Char.isDigit with
        | c2 :: r2 =>
          if c2 = rbrace then
            if ds2 = [] then some (lo, none, r2)
            else if lo ≤ natOfDigits ds2 then some (lo, some (natOfDigits ds2), r2)
            else none
          else none
        | [] => none
      else none
    | [] => none

def withLazy (f : Bool → Quant) (cs : List Char) : Quant × List Char :=
  match cs with
  | '?' :: r => (f true, r)
  | _ => (f false, cs)

/-- The optional quantifier after an atom; a brace that does not form a valid
repetition stays a literal for the *next* atom. -/
def parseQuantAt (cs : List Char) : Quant × List Char :=
  match cs with
  | [] => (.one, [])
  | c :: r =>
    if c = '*' then withLazy .star r
    else if c = '+' then withLazy .plus r
    else if c = '?' then withLazy .opt r
    else if c = lbrace then
      match parseRepBody r with
      | some (lo, hi, r2) => withLazy (.rep lo hi) r2
      | none => (.one, cs)
    else (.one, cs)

mutual

/-- Alternatives separated by `|`, stopping at `)` or the end. -/
def parseAltsF : Nat → Nat → List Char → Option (List (List RPiece) × Nat × List Char)
  | 0, _, _ => none
  | fuel + 1, ctr, cs =>
    match parseSeqF fuel ctr cs with
    | some (seq, ctr2, rest) =>
      match rest with
      | '|' :: r2 =>
        (parseAltsF fuel ctr2 r2).map (fun p => (seq :: p.1, p.2.1, p.2.2))
      | _ => some ([seq], ctr2, rest)
    | none => none

/-- A concatenation of quantified atoms. -/
def parseSeqF : Nat → Nat → List Char → Option (List RPiece × Nat × List Char)
  | 0, _, _ => none
  | fuel + 1, ctr, cs =>
    match cs with
    | [] => some ([], ctr, [])
    | c :: _ =>
      if c = ')' ∨ c = '|' then some ([], ctr, cs)
      else
        match parseAtomF fuel ctr cs with
        | some (a, ctr2, rest) =>
          let q := parseQuantAt rest
          (parseSeqF fuel ctr2 q.2).map (fun p => (RPiece.mk a q.1 :: p.1, p.2.1, p.2.2))
        | none => none

/-- One atom.  A bare quantifier character here is JavaScript's
`Nothing to repeat` error; `(?` forms other than `(?:` are unsupported. -/
def parseAtomF : Nat → Nat → List Char → Option (RAtom × Nat × List Char)
  | 0, _, _ => none
  | _ + 1, _, [] => none
  | fuel + 1, ctr, c :: cs =>
    if c = '^' then some (.anchorStart, ctr, cs)
    else if c = '$' then some (.anchorEnd, ctr, cs)
    else if c = '.' then some (.dot, ctr, cs)
    else if c = '*' ∨ c = '+' ∨ c = '?' then none
    else if c = '\\' then
      match cs with
      | e :: cs2 =>
        if e = 'b' ∨ e = 'B' ∨ e = 'u' ∨ e = 'x' ∨ e = 'k' ∨ ('1' ≤ e ∧ e ≤ '9') then none
        else
          match escClsShort e with
          | some item => some (.cls false [item], ctr, cs2)
          | none => some (.lit (escAtomChar e), ctr, cs2)
      | [] => none
    else if c = '[' then
      match cs with
      | '^' :: cs2 =>
        (parseClsItemsF fuel cs2).map (fun p => (.cls true p.1, ctr, p.2))
      | _ =>
        (parseClsItemsF fuel cs).map (fun p => (.cls false p.1, ctr, p.2))
    else if c = '(' then
      match cs with
      | '?' :: ':' :: cs2 =>
        (match parseAltsF fuel ctr cs2 with
         | some (alts, ctr2, ')' :: rest) => some (.group none alts, ctr2, rest)
         | _ => none)
      | '?' :: _ => none
      | _ =>
        (match parseAltsF fuel (ctr + 1) cs with
         | some (alts, ctr2, ')' :: rest) => some (.group (some (ctr + 1)) alts, ctr2, rest)
         | _ => none)
    else some (.lit c, ctr, cs)

end

/-- Compile a whole pattern string to a `JsRegex` (`new RegExp`); `none` is a
`SyntaxError`. -/
def regexParse (cs : List Char) : Option JsRegex :=
  match parseAltsF (2 * cs.length + 8) 0 cs with
  | some (alts, ctr, []) => some ⟨alts, ctr⟩
  | _ => none

/-! #### The backtracking matcher -/

/-- Matcher state: the input not yet consumed, the absolute position (for
`^`), and the captures recorded so far (latest first). -/
structure MState where
  rest : List Char
  pos : Nat
  caps : List (Nat × String)

def capLookup (caps : List (Nat × String)) (i : Nat) : Option String :=
  match caps.find? (fun p => p.1 = i) with
  | some p => some p.2
  | none => none

mutual

/-- All ways to match a sequence of pieces, in the engine's priority order. -/
def mSeq : Nat → List RPiece → MState → List MState
  | 0, _, _ => []
  | _ + 1, [], st => [st]
  | fuel + 1, p :: ps, st =>
    (mPiece fuel p st).flatMap (fun st2 => mSeq fuel ps st2)

def mPiece : Nat → RPiece → MState → List MState
  | 0, _, _ => []
  | fuel + 1, .mk a q, st =>
    match q with
    | .one => mAtom fuel a st
    | .star lazy => mLoop fuel a 0 none lazy st
    | .plus lazy => mLoop fuel a 1 none lazy st
    | .opt lazy => mLoop fuel a 0 (some 1) lazy st
    | .rep lo hi lazy => mLoop fuel a lo hi lazy st

def mAtom : Nat → RAtom → MState → List MState
  | 0, _, _ => []
  | _ + 1, .lit c, st =>
    (match st.rest with
     | x :: xs => if x = c then [⟨xs, st.pos + 1, st.caps⟩] else []
     | [] => [])
  | _ + 1, .dot, st =>
    (match st.rest with
     | x :: xs => if dotMatch x then [⟨xs, st.pos + 1, st.caps⟩] else []
     | [] => [])
  | _ + 1, .cls neg items, st =>
    (match st.rest with
     | x :: xs =>
       if (items.any (fun i => clsItemMatch i x)) ≠ neg then
         [⟨xs, st.pos + 1, st.caps⟩]
       else []
     | [] => [])
  | _ + 1, .anchorStart, st => if st.pos = 0 then [st] else []
  | _ + 1, .anchorEnd, st => if st.rest = [] then [st] else []
  | fuel + 1, .group idx alts, st =>
    (mAlts fuel alts st).map (fun st2 =>
      match idx with
      | some i =>
        ⟨st2.rest, st2.pos, (i, String.mk (st.rest.take (st2.pos - st.pos))) :: st2.caps⟩
      | none => st2)

def mAlts : Nat → List (List RPiece) → MState → List MState
  | 0, _, _ => []
  | _ + 1, [], _ => []
  | fuel + 1, alt :: more, st => mSeq fuel alt st ++ mAlts fuel more st

/-- Repetition between `lo` and `hi` iterations.  An iteration that consumes
nothing ends the loop (the ES RepeatMatcher progress rule). -/
def mLoop : Nat → RAtom → Nat → Option Nat → Bool → MState → List MState
  | 0, _, _, _, _, _ => []
  | fuel + 1, a, lo, hi, lazy, st =>
    if hi = some 0 then [st]
    else
      let iters := (mAtom fuel a st).flatMap (fun st2 =>
        if st2.pos = st.pos then (if lo = 0 then [] else [st2])
        else mLoop fuel a (lo - 1) (hi.map (fun h => h - 1)) lazy st2)
      if lo = 0 then
        if lazy then st :: iters else iters ++ [st]
      else iters

end

mutual
def atomSize : RAtom → Nat
  | .group _ alts => 1 + altsSize alts
  | _ => 1
def pieceSize : RPiece → Nat
  | .mk a _ => 1 + atomSize a
def seqSize : List RPiece → Nat
  | [] => 1
  | p :: ps => pieceSize p + seqSize ps
def altsSize : List (List RPiece) → Nat
  | [] => 1
  | al :: more => seqSize al + altsSize more
end

def mFuel (re : JsRegex) (s : List Char) : Nat :=
  8 * (altsSize re.alts + s.length + 8)

/-- `String.prototype.match` with a non-global regex: search positions left
to right and take the engine's first result at the first matching position. -/
def searchFrom : Nat → JsRegex → List Char → Nat → Option MState
  | 0, _, _, _ => none
  | fuel + 1, re, s, i =>
    if i > s.length then none
    else
      match mAlts (mFuel re s) re.alts ⟨s.drop i, i, []⟩ with
      | st :: _ => some st
      | [] => searchFrom fuel re s (i + 1)

def regexSearch (re : JsRegex) (s : List Char) : Option MState :=
  searchFrom (s.length + 2) re s 0

/-! ### `RouteHandler` -/

def hexVal (c : Char) : Option Nat :=
  if c.isDigit then some (c.toNat - '0'.toNat)
  else if 'a' ≤ c ∧ c ≤ 'f' then some (c.toNat - 'a'.toNat + 10)
  else if 'A' ≤ c ∧ c ≤ 'F' then some (c.toNat - 'A'.toNat + 10)
  else none

def pctCont (cs : List Char) : Option (Nat × List Char) :=
  match cs with
  | '%' :: h1 :: h2 :: rest =>
    match hexVal h1, hexVal h2 with
    | some v1, some v2 =>
      let b := v1 * 16 + v2
      if 0x80 ≤ b ∧ b < 0xC0 then some (b - 0x80, rest) else none
    | _, _ => none
  | _ => none

/-- `decodeURIComponent`: percent escapes decode as UTF-8 (continuation
escapes must follow a lead byte; overlong forms, surrogates and bad hex
throw, modelled by `none`); other characters pass through. -/
def pctDecodeF : Nat → List Char → Option (List Char)
  | 0, _ => none
  | _ + 1, [] => some []
  | fuel + 1, c :: cs =>
    if c = '%' then
      match cs with
      | h1 :: h2 :: rest =>
        match hexVal h1, hexVal h2 with
        | some v1, some v2 =>
          let b := v1 * 16 + v2
          if b < 0x80 then (pctDecodeF fuel rest).map (fun t => Char.ofNat b :: t)
          else if 0xC0 ≤ b ∧ b < 0xE0 then
            match pctCont rest with
            | some (b2, rest2) =>
              let cp := (b - 0xC0) * 64 + b2
              if 0x80 ≤ cp then (pctDecodeF fuel rest2).map (fun t => Char.ofNat cp :: t)
              else none
            | none => none
          else if 0xE0 ≤ b ∧ b < 0xF0 then
            match pctCont rest with
            | some (b2, rest2) =>
              match pctCont rest2 with
              | some (b3, rest3) =>
                let cp := (b - 0xE0) * 4096 + b2 * 64 + b3
                if 0x800 ≤ cp ∧ ¬(0xD800 ≤ cp ∧ cp ≤ 0xDFFF) then
                  (pctDecodeF fuel rest3).map (fun t => Char.ofNat cp :: t)
                else none
              | none => none
            | none => none
          else if 0xF0 ≤ b ∧ b < 0xF8 then
            match pctCont rest with
            | some (b2, rest2) =>
              match pctCont rest2 with
              | some (b3, rest3) =>
                match pctCont rest3 with
                | some (b4, rest4) =>
                  let cp := (b - 0xF0) * 262144 + b2 * 4096 + b3 * 64 + b4
                  if 0x10000 ≤ cp ∧ cp < 0x110000 then
                    (pctDecodeF fuel rest4).map (fun t => Char.ofNat cp :: t)
                  else none
                | none => none
              | none => none
            | none => none
          else none
        | _, _ => none
      | _ => none
    else (pctDecodeF fuel cs).map (fun t => c :: t)

def decodeURIComponentJs (s : String) : Option String :=
  (pctDecodeF (s.data.length + 1) s.data).map String.mk

/-- `ParsedRoute` from `types.ts`: the compiled form of one declaration. -/
structure ParsedRoute where
  method : String
  path : String
  originalRoute : String
  paramNames : List String
  pathRegex : JsRegex

/-- JavaScript `toUpperCase` (ASCII range). -/
def jsToUpper (s : String) : String :=
  String.mk (s.data.map Char.toUpper)

/-- The `/:[^/]+/g` replace: each `:` followed by a non-empty run of
non-slash characters becomes the capture `([^/]+)` and its name is collected
left to right. -/
def replaceParamsF : Nat → List Char → List Char × List String
  | 0, cs => (cs, [])
  | _ + 1, [] => ([], [])
  | fuel + 1, c :: cs =>
    if c = ':' then
      let run := cs.takeWhile (fun x => decide (¬x = '/'))
      if run = [] then
        let r := replaceParamsF fuel cs
        (c :: r.1, r.2)
      else
        let r := replaceParamsF fuel (cs.dropWhile (fun x => decide (¬x = '/')))
        ("([^/]+)".data ++ r.1, String.mk run :: r.2)
    else
      let r := replaceParamsF fuel cs
      (c :: r.1, r.2)

/-- The `/\*\/g` replace: every `*` becomes `(.*)`. -/
def replaceStars (cs : List Char) : List Char :=
  cs.foldr (fun c acc => (if c = '*' then "(.*)".data else [c]) ++ acc) []

/-- The `/\//g` replace: every `/` becomes `\/`. -/
def escapeSlashes (cs : List Char) : List Char :=
  cs.foldr (fun c acc => (if c = '/' then ['\\', '/'] else [c]) ++ acc) []

/-- `RouteHandler.parseRoute`: split the declaration on spaces into the
method and the path (re-joined, in case the path contains spaces), reject
an empty method or path, uppercase the method (with *no* check against the
HTTP-verb list), build the pattern string and compile `^pattern$`.  The
`Except` carries the thrown error's message. -/
def parseRoute (route : String) : Except String ParsedRoute :=
  let parts := splitOnCharL ' ' route.data
  let method := String.mk (parts.headD [])
  let path := String.mk (List.intercalate [' '] (parts.drop 1))
  if method = "" ∨ path = "" then
    .error ("Invalid route format: " ++ route ++ ". Expected format: \"METHOD /path\"")
  else
    let pr := replaceParamsF (path.data.length + 1) path.data
    match regexParse ('^' :: (escapeSlashes (replaceStars pr.1) ++ ['$'])) with
    | some re => .ok ⟨jsToUpper method, path, route, pr.2, re⟩
    | none => .error "Invalid regular expression"

/-- Insert-or-overwrite (JavaScript object assignment `params[name] = v`). -/
def assocSet (l : List (String × α)) (k : String) (v : α) : List (String × α) :=
  match l with
  | [] => [(k, v)]
  | (k2, v2) :: t => if k2 = k then (k, v) :: t else (k2, v2) :: assocSet t k v

/-- Bind `paramNames[i]` to capture `i+1`, percent-decoded; a `URIError`
from `decodeURIComponent` propagates (`.error`), an absent capture is
skipped. -/
def bindParamsF (caps : List (Nat × String)) (acc : List (String × String)) :
    Nat → List String → Except Unit (List (String × String))
  | _, [] => .ok acc
  | i, n :: ns =>
    match capLookup caps (i + 1) with
    | some v =>
      match decodeURIComponentJs v with
      | some d => bindParamsF caps (assocSet acc n d) (i + 1) ns
      | none => .error ()
    | none => bindParamsF caps acc (i + 1) ns

/-- `RouteHandler.matchRoute`: `none` models the `null` return;
`.error` a thrown `URIError`. -/
def matchRoute (pr : ParsedRoute) (method requestPath : String) :
    Except Unit (Option (List (String × String))) :=
  if ¬pr.method = jsToUpper method then .ok none
  else
    match regexSearch pr.pathRegex requestPath.data with
    | none => .ok none
    | some st =>
      match bindParamsF st.caps [] 0 pr.paramNames with
      | .ok ps => .ok (some ps)
      | .error e => .error e

/-- `RouteHandler.findMatchingRoute`: first matching route in list order. -/
def findMatchingRoute (routes : List ParsedRoute) (method requestPath : String) :
    Except Unit (Option (ParsedRoute × List (String × String))) :=
  match routes with
  | [] => .ok none
  | r :: rs =>
    match matchRoute r method requestPath with
    | .error e => .error e
    | .ok (some ps) => .ok (some (r, ps))
    | .ok none => findMatchingRoute rs method requestPath

/-- Non-empty `/`-separated segments of a pattern path. -/
def segCount (p : String) : Nat :=
  ((splitOnCharL '/' p.data).filter (fun s => decide (s.length > 0))).length

/-- Segments not starting with `:`. -/
def staticCount (p : String) : Nat :=
  ((splitOnCharL '/' p.data).filter
    (fun s => decide (s.length > 0) &&
      (match s with
       | ':' :: _ => false
       | _ => true))).length

/-- The comparator of `sortRoutesBySpecificity`: fewer parameters first,
then more segments, then more static segments. -/
def routeCmp (a b : ParsedRoute) : Int :=
  if a.paramNames.length ≠ b.paramNames.length then
    (a.paramNames.length : Int) - (b.paramNames.length : Int)
  else if segCount a.path ≠ segCount b.path then
    (segCount b.path : Int) - (segCount a.path : Int)
  else
    (staticCount b.path : Int) - (staticCount a.path : Int)

def specLe (a b : ParsedRoute) : Bool :=
  decide (routeCmp a b ≤ 0)

/-- `Array.prototype.sort` with a consistent comparator is the stable sort
by that comparator. -/
def sortRoutesBySpecificity (routes : List ParsedRoute) : List ParsedRoute :=
  routes.mergeSort specLe

/-- `RouteHandler.validateHttpMethod` (defined by the source, but never
called from `parseRoute` or any other compilation path). -/
def validateHttpMethod (m : String) : Bool :=
  ["GET", "POST", "PUT", "DELETE", "PATCH", "HEAD", "OPTIONS"].contains (jsToUpper m)

/-! ### Spec-side predicates used by the claim statements -/

def Val.isStr : Val → Bool
  | .str _ => true
  | _ => false

/-- The spec's wording for §4.3: the entire string is exactly one
`\x7b\x7b...\x7d\x7d` placeholder (non-empty body without `\x7d`). -/
def isExactlyOnePlaceholder (s : String) : Bool :=
  match s.data with
  | a :: b :: rest =>
    a = lbrace && b = lbrace &&
    decide (¬rest.takeWhile (fun c => decide (¬c = rbrace)) = []) &&
    decide (rest.dropWhile (fun c => decide (¬c = rbrace)) = [rbrace, rbrace])
  | _ => false

/-- Path characters the constructed pattern matches literally: everything
except the regex metacharacters, the `:`/`*` pattern syntax, and the space
that separates the verb from the path. -/
def routeLiteralChar (c : Char) : Bool :=
  !(c = '\\' || c = '^' || c = '$' || c = '.' || c = '|' || c = '?' ||
    c = '*' || c = '+' || c = '(' || c = ')' || c = '[' || c = ']' ||
    c = lbrace || c = rbrace || c = ':' || c = ' ')

/-- A route accepts the request (resolution would select it or a better
candidate). -/
def routeMatches (r : ParsedRoute) (method requestPath : String) : Bool :=
  match matchRoute r method requestPath with
  | .ok (some _) => true
  | _ => false

/-- Property access ignoring the `null` `TypeError` (used to express plain
presence/absence of a path). -/
def jsIndexPure (v : Val) (k : String) : Option PropVal :=
  match jsIndex v k with
  | .ok r => r
  | .error _ => none

/-- Every segment of the dotted path resolves while walking the value.  A
segment that resolves to a prototype-inherited (host) member counts as
present: from there the walk is engine behaviour, never `undefined` at that
step. -/
def hasPath : Val → List String → Bool
  | _, [] => true
  | v, k :: ks =>
    match jsIndexPure v k with
    | some (.json v2) => hasPath v2 ks
    | some (.host _ _) => true
    | none => false

def bodyHasPath : Option Val → List String → Bool
  | none, _ => false
  | some v, ks => isObjectLike v && hasPath v ks

/-- The walk reads a property of an intermediate `null` value. -/
def walkHitsNull : Val → List String → Bool
  | _, [] => false
  | v, k :: ks =>
    match v with
    | .null => true
    | _ =>
      match jsIndexPure v k with
      | some (.json v2) => walkHitsNull v2 ks
      | some (.host _ _) => false
      | none => false

def bodyEvalHitsNull (body : Option Val) (path : String) : Bool :=
  match body with
  | none => false
  | some v =>
    isObjectLike v && walkHitsNull v (splitOnCharStr '.' path)

/-- A fixed environment for the engine's external helpers, used by the
concrete evaluations below (their outcomes never depend on it). -/
def oFix : Oracle :=
  { fakerEval := fun _ => none
    uuid := "00000000-0000-4000-8000-000000000000"
    randomInt := fun a _ => a
    randomBool := true
    nowIso := "2024-01-01T00:00:00.000Z"
    pastIso := "2023-01-01T00:00:00.000Z"
    futureIso := "2025-01-01T00:00:00.000Z"
    recentIso := "2023-12-31T00:00:00.000Z"
    nowMillis := 1704067200000
    csvRow := fun _ => ("Name", "mail@example.com", "2023-01-01T00:00:00.000Z")
    hostWalk := fun _ _ _ => .ok none
    hostString := fun _ k => "function " ++ k ++ "() \x7b [native code] \x7d" }

/-! ## Theorems -/

/-- Core fail-open property shared by the condition claims: when the
substituted text matches none of the three supported shapes, evaluation
returns `true` in every branch (whitelist rejection included). -/
theorem evalCond_true_of_not_shape (ctx : RequestContext) (cond : String)
    (h : isSupportedShape (processedCondition ctx cond) = false) :
    evaluateCondition ctx cond = true := by
  unfold evaluateCondition
  by_cases hcond : processedCondition ctx cond ≠ [] ∧
      (∀ c ∈ processedCondition ctx cond, condCharOk c = true)
  · rw [if_pos hcond]
    unfold isSupportedShape at h
    unfold simpleConditionEval
    cases hEq : parseEqShape (processedCondition ctx cond) with
    | some v => rw [hEq] at h; simp at h
    | none =>
      rw [hEq] at h
      cases hNeq : parseNeqShape (processedCondition ctx cond) with
      | some v => rw [hNeq] at h; simp at h
      | none =>
        rw [hNeq] at h
        cases hNum : parseNumShape (processedCondition ctx cond) with
        | none => simp
        | some v =>
          obtain ⟨l, op, r⟩ := v
          rw [hNum] at h
          simp only [Option.isSome_none, Bool.false_or] at h
          simp only
          rw [if_neg, if_neg, if_neg, if_neg, if_neg]
          all_goals simp_all
  · rw [if_neg hcond]

/-- C7: for every condition string and request context, a substituted
condition text that matches none of the supported shapes (quoted-string
`===`/`!==`, or an integer comparison with `>`, `<`, `>=`, `<=`, `==`)
makes `evaluateCondition` return `true` (fail-open); since the model is a
total function, evaluation never throws out of the dispatcher. -/
theorem condition_fail_open_of_unsupported_shape (ctx : RequestContext) (cond : String)
    (h : isSupportedShape (processedCondition ctx cond) = false) :
    evaluateCondition ctx cond = true :=
  evalCond_true_of_not_shape ctx cond h

/-- Witness for C7 at a concrete unsupported condition. -/
theorem condition_fail_open_witness :
    isSupportedShape (processedCondition ⟨[], [], none, []⟩ "hello world") = false ∧
    evaluateCondition ⟨[], [], none, []⟩ "hello world" = true :=
  ⟨by decide, condition_fail_open_of_unsupported_shape ⟨[], [], none, []⟩ "hello world" (by decide)⟩

/-- C1 (code bug): the condition `body.password !== 'secret'` evaluates to
`true` both for the body `\x7bpassword: "secret"\x7d` (the README's login
example expects `false` here, blocking the 401 branch) and for
`\x7bpassword: "x"\x7d`: `evaluateCondition` substitutes only `params.` and
`query.` references, never reads the body, and the single-quoted text
matches no supported shape, so the fail-open default fires. -/
theorem body_password_condition_evaluates_true :
    evaluateCondition ⟨[], [], some (.obj [("password", .str "secret")]), []⟩
      "body.password !== 'secret'" = true ∧
    evaluateCondition ⟨[], [], some (.obj [("password", .str "x")]), []⟩
      "body.password !== 'secret'" = true := by
  exact ⟨rfl, rfl⟩

/-! ### Substitution lemmas for the condition replaces -/

theorem stripPre_self_append (p r : List Char) : stripPre p (p ++ r) = some r := by
  induction p with
  | nil => rfl
  | cons a ps ih => simp [stripPre, ih]

theorem stripPre_some_eq {p l r : List Char} (h : stripPre p l = some r) :
    l = p ++ r := by
  induction p generalizing l with
  | nil => simpa [stripPre] using h
  | cons a ps ih =>
    cases l with
    | nil => simp [stripPre] at h
    | cons c cs =>
      by_cases hac : a = c
      · subst hac
        simp only [stripPre, if_pos rfl] at h
        simpa using ih h
      · simp [stripPre, hac] at h

theorem stripPre_some_append {p l r : List Char} (t : List Char)
    (h : stripPre p l = some r) : stripPre p (l ++ t) = some (r ++ t) := by
  rw [stripPre_some_eq h, List.append_assoc]
  exact stripPre_self_append p (r ++ t)

theorem stripPre_none_append {p l t : List Char}
    (hdisj : ∀ a ∈ p, ∀ b ∈ t, ¬a = b) (h : stripPre p l = none) :
    stripPre p (l ++ t) = none := by
  induction p generalizing l t with
  | nil => simp [stripPre] at h
  | cons a ps ih =>
    cases l with
    | nil =>
      cases t with
      | nil => rw [List.append_nil]; exact h
      | cons b bs =>
        have hab : ¬a = b := hdisj a (by simp) b (by simp)
        simp [stripPre, hab]
    | cons c cs =>
      by_cases hac : a = c
      · subst hac
        simp only [stripPre, if_pos rfl] at h ⊢
        exact ih (fun x hx b hb => hdisj x (by simp [hx]) b hb) h
      · simp [stripPre, hac]

theorem wordRun_eq_append (l : List Char) : l = (wordRun l).1 ++ (wordRun l).2 := by
  induction l with
  | nil => rfl
  | cons c cs ih =>
    by_cases hc : isWordChar c = true
    · simp [wordRun, hc]
      exact ih
    · simp [wordRun, hc]

theorem wordRun_fst_word {l : List Char} : ∀ c ∈ (wordRun l).1, isWordChar c = true := by
  induction l with
  | nil => simp [wordRun]
  | cons c cs ih =>
    by_cases hc : isWordChar c = true
    · simpa [wordRun, hc] using ih
    · simp [wordRun, hc]

theorem wordRun_all {l : List Char} (h : ∀ c ∈ l, isWordChar c = true) :
    wordRun l = (l, []) := by
  induction l with
  | nil => rfl
  | cons c cs ih =>
    have hc := h c (by simp)
    simp [wordRun, hc, ih (fun x hx => h x (by simp [hx]))]

theorem wordRun_append_stop {l : List Char} {s0 : Char} (t : List Char)
    (h : ∀ c ∈ l, isWordChar c = true) (hs : isWordChar s0 = false) :
    wordRun (l ++ s0 :: t) = (l, s0 :: t) := by
  induction l with
  | nil => simp [wordRun, hs]
  | cons c cs ih =>
    have hc := h c (by simp)
    simp [wordRun, hc, ih (fun x hx => h x (by simp [hx]))]

theorem wordRun_append_of_ne {l : List Char} (t : List Char)
    (h : (wordRun l).2 ≠ []) :
    wordRun (l ++ t) = ((wordRun l).1, (wordRun l).2 ++ t) := by
  induction l with
  | nil => simp [wordRun] at h
  | cons c cs ih =>
    by_cases hc : isWordChar c = true
    · by_cases h2 : (wordRun cs).2 = []
      · exfalso; apply h; simp [wordRun, hc, h2]
      · have := ih h2
        simp [wordRun, hc] at h ⊢
        rw [this]
        exact ⟨rfl, rfl⟩
    · simp [wordRun, hc]

theorem substF_id_of_no_head {p0 : Char} {ps : List Char}
    (repl : String → List Char) {l : List Char}
    (h : ∀ c ∈ l, ¬c = p0) : ∀ fuel, substPrefixedF (p0 :: ps) repl fuel l = l := by
  intro fuel
  induction fuel generalizing l with
  | zero => rfl
  | succ f ih =>
    cases l with
    | nil => rfl
    | cons c cs =>
      have hc : ¬p0 = c := fun hh => h c (by simp) hh.symm
      simp only [substPrefixedF, stripPre, if_neg hc]
      rw [ih (fun x hx => h x (by simp [hx]))]


theorem substF_head_of_ne (p0 c : Char) (ps cs : List Char)
    (repl : String → List Char) (h : ¬c = p0) (fuel : Nat) :
    ∃ ys, substPrefixedF (p0 :: ps) repl fuel (c :: cs) = c :: ys := by
  cases fuel with
  | zero => exact ⟨cs, rfl⟩
  | succ f =>
    have hc : ¬p0 = c := fun hh => h hh.symm
    simp only [substPrefixedF, stripPre, if_neg hc]
    exact ⟨_, rfl⟩

theorem substF_match {pre name : List Char} {s0 : Char} (t : List Char)
    (repl : String → List Char) (fuel : Nat)
    (hpre : pre ≠ []) (hname : name ≠ [])
    (hword : ∀ c ∈ name, isWordChar c = true) (hs0 : isWordChar s0 = false) :
    substPrefixedF pre repl (fuel + 1) (pre ++ name ++ s0 :: t) =
      repl (String.mk name) ++ substPrefixedF pre repl fuel (s0 :: t) := by
  obtain ⟨p0, ps, rfl⟩ : ∃ p0 ps, pre = p0 :: ps := by
    cases pre with
    | nil => exact absurd rfl hpre
    | cons a b => exact ⟨a, b, rfl⟩
  have hstrip : stripPre (p0 :: ps) ((p0 :: ps) ++ (name ++ s0 :: t)) =
      some (name ++ s0 :: t) := stripPre_self_append _ _
  have hwr : wordRun (name ++ s0 :: t) = (name, s0 :: t) :=
    wordRun_append_stop t hword hs0
  show substPrefixedF (p0 :: ps) repl (fuel + 1) (p0 :: (ps ++ name ++ s0 :: t)) = _
  simp only [substPrefixedF]
  have : stripPre (p0 :: ps) (p0 :: (ps ++ name ++ s0 :: t)) = some (name ++ s0 :: t) := by
    simpa [List.append_assoc] using hstrip
  rw [this]
  simp only [hwr]
  rw [if_neg hname]

theorem substF_nil (pre : List Char) (repl : String → List Char) (fuel : Nat) :
    substPrefixedF pre repl fuel [] = [] := by
  cases fuel <;> rfl

/-- A tail whose characters all satisfy `P` — a predicate false on every
character of `pre` and whose first character is not a word character — is
scanned inertly: the replace acts on the front only. -/
theorem substF_append_inert {pre : List Char} (repl : String → List Char)
    {P : Char → Bool} {sep : Char} {t : List Char}
    (hpre0 : pre ≠ [])
    (hpre : ∀ a ∈ pre, P a = false)
    (ht : ∀ b ∈ sep :: t, P b = true)
    (hsep : isWordChar sep = false) :
    ∀ fuel l, substPrefixedF pre repl fuel (l ++ sep :: t) =
      substPrefixedF pre repl fuel l ++ sep :: t := by
  obtain ⟨p0, ps, rfl⟩ : ∃ p0 ps, pre = p0 :: ps := by
    cases pre with
    | nil => exact absurd rfl hpre0
    | cons a b => exact ⟨a, b, rfl⟩
  have hdisj : ∀ a ∈ p0 :: ps, ∀ b ∈ sep :: t, ¬a = b := by
    intro a ha b hb hab
    have h1 := hpre a ha
    have h2 := ht b hb
    rw [hab, h2] at h1
    simp at h1
  have hne : ∀ c ∈ sep :: t, ¬c = p0 := by
    intro c hc hcp
    exact hdisj p0 (by simp) c hc hcp.symm
  intro fuel
  induction fuel with
  | zero => intro l; rfl
  | succ f ih =>
    intro l
    cases l with
    | nil =>
      rw [List.nil_append, substF_nil, List.nil_append]
      exact substF_id_of_no_head repl hne (f + 1)
    | cons c cs =>
      rw [List.cons_append]
      cases hst : stripPre (p0 :: ps) (c :: cs) with
      | some rest =>
        have hstL : stripPre (p0 :: ps) (c :: (cs ++ sep :: t)) = some (rest ++ sep :: t) := by
          rw [← List.cons_append]
          exact stripPre_some_append (sep :: t) hst
        cases hr2 : (wordRun rest).2 with
        | nil =>
          have hrest : rest = (wordRun rest).1 := by
            conv_lhs => rw [wordRun_eq_append rest]
            rw [hr2, List.append_nil]
          have hw : ∀ x ∈ rest, isWordChar x = true := by
            intro x hx
            exact wordRun_fst_word x (hrest ▸ hx)
          have hwrL : wordRun (rest ++ sep :: t) = (rest, sep :: t) :=
            wordRun_append_stop t hw hsep
          have hwrR : wordRun rest = (rest, []) := wordRun_all hw
          by_cases hrnil : rest = []
          · subst hrnil
            rw [List.nil_append] at hstL hwrL
            show substPrefixedF (p0 :: ps) repl (f + 1) (c :: (cs ++ sep :: t)) = _
            simp only [substPrefixedF, hstL, hst, hwrL, hwrR]
            simp [ih cs]
          · show substPrefixedF (p0 :: ps) repl (f + 1) (c :: (cs ++ sep :: t)) = _
            simp only [substPrefixedF, hstL, hst, hwrL, hwrR, if_neg hrnil]
            simp only [substF_nil, List.append_nil, List.append_assoc]
            congr 1
            exact substF_id_of_no_head repl hne f
        | cons d ds =>
          have hne2 : (wordRun rest).2 ≠ [] := by rw [hr2]; simp
          have hwrL : wordRun (rest ++ sep :: t) =
              ((wordRun rest).1, (wordRun rest).2 ++ sep :: t) :=
            wordRun_append_of_ne (sep :: t) hne2
          show substPrefixedF (p0 :: ps) repl (f + 1) (c :: (cs ++ sep :: t)) = _
          by_cases hfst : (wordRun rest).1 = []
          · simp only [substPrefixedF, hstL, hst, hwrL, hfst, if_pos rfl]
            rw [ih cs]
            simp
          · simp only [substPrefixedF, hstL, hst, hwrL, if_neg hfst]
            rw [ih ((wordRun rest).2), List.append_assoc]
      | none =>
        have hstL : stripPre (p0 :: ps) (c :: (cs ++ sep :: t)) = none := by
          rw [← List.cons_append]
          exact stripPre_none_append hdisj hst
        show substPrefixedF (p0 :: ps) repl (f + 1) (c :: (cs ++ sep :: t)) = _
        simp only [substPrefixedF, hstL, hst]
        rw [ih cs]
        simp

theorem dropWhile_head_false {p : Char → Bool} {l : List Char} {c : Char} {r : List Char}
    (h : l.dropWhile p = c :: r) : p c = false := by
  induction l with
  | nil => simp at h
  | cons a as ih =>
    by_cases ha : p a = true
    · rw [List.dropWhile_cons_of_pos ha] at h
      exact ih h
    · rw [List.dropWhile_cons_of_neg ha] at h
      cases h
      simpa using ha

theorem getLast?_append_right {l2 : List Char} (l1 : List Char) {x : Char}
    (h : l2.getLast? = some x) : (l1 ++ l2).getLast? = some x := by
  rw [List.getLast?_append, h]
  rfl

theorem parseQuoted_some_eq {cs a r : List Char}
    (h : parseQuoted cs = some (a, r)) : cs = '"' :: (a ++ '"' :: r) := by
  cases cs with
  | nil => simp [parseQuoted] at h
  | cons c rest =>
    simp only [parseQuoted] at h
    by_cases hc : c = '"'
    · rw [if_pos hc] at h
      subst hc
      cases hd : rest.dropWhile (fun x => decide (¬x = '"')) with
      | nil => rw [hd] at h; simp at h
      | cons q r2 =>
        simp only [hd] at h
        have hq : q = '"' := by
          have := dropWhile_head_false hd
          simpa using this
        rw [if_pos hq] at h
        simp only [Option.some.injEq, Prod.mk.injEq] at h
        obtain ⟨ha, hr⟩ := h
        subst hq
        have hsplit := List.takeWhile_append_dropWhile
          (p := fun x => decide (¬x = '"')) (l := rest)
        rw [hd] at hsplit
        rw [← hsplit, ha, hr]
    · rw [if_neg hc] at h
      simp at h

theorem parseEqShape_some_last {cs : List Char} {ab : List Char × List Char}
    (h : parseEqShape cs = some ab) : cs.getLast? = some '"' := by
  unfold parseEqShape at h
  cases h1 : parseQuoted cs with
  | none => simp only [h1] at h; exact absurd h (by simp)
  | some p1 =>
    obtain ⟨a, r⟩ := p1
    simp only [h1] at h
    cases h2 : stripPre [' ', '=', '=', '=', ' '] r with
    | none => simp only [h2] at h; exact absurd h (by simp)
    | some r2 =>
      simp only [h2] at h
      cases h3 : parseQuoted r2 with
      | none => simp only [h3] at h; exact absurd h (by simp)
      | some p2 =>
        obtain ⟨b, rr⟩ := p2
        simp only [h3] at h
        cases rr with
        | cons x xs => simp at h
        | nil =>
          have e1 := parseQuoted_some_eq h1
          have e2 := stripPre_some_eq h2
          have e3 := parseQuoted_some_eq h3
          rw [e1, e2, e3]
          have hre : ('"' :: (a ++ '"' :: ([' ', '=', '=', '=', ' '] ++
              ('"' :: (b ++ '"' :: ([] : List Char)))))) =
              ('"' :: a ++ '"' :: [' ', '=', '=', '=', ' '] ++ '"' :: b) ++ ['"'] := by
            simp
          rw [hre, List.getLast?_concat]

theorem parseNeqShape_some_last {cs : List Char} {ab : List Char × List Char}
    (h : parseNeqShape cs = some ab) : cs.getLast? = some '"' := by
  unfold parseNeqShape at h
  cases h1 : parseQuoted cs with
  | none => simp only [h1] at h; exact absurd h (by simp)
  | some p1 =>
    obtain ⟨a, r⟩ := p1
    simp only [h1] at h
    cases h2 : stripPre [' ', '!', '=', '=', ' '] r with
    | none => simp only [h2] at h; exact absurd h (by simp)
    | some r2 =>
      simp only [h2] at h
      cases h3 : parseQuoted r2 with
      | none => simp only [h3] at h; exact absurd h (by simp)
      | some p2 =>
        obtain ⟨b, rr⟩ := p2
        simp only [h3] at h
        cases rr with
        | cons x xs => simp at h
        | nil =>
          have e1 := parseQuoted_some_eq h1
          have e2 := stripPre_some_eq h2
          have e3 := parseQuoted_some_eq h3
          rw [e1, e2, e3]
          have hre : ('"' :: (a ++ '"' :: ([' ', '!', '=', '=', ' '] ++
              ('"' :: (b ++ '"' :: ([] : List Char)))))) =
              ('"' :: a ++ '"' :: [' ', '!', '=', '=', ' '] ++ '"' :: b) ++ ['"'] := by
            simp
          rw [hre, List.getLast?_concat]

theorem parseNumShape_none_of_head {c : Char} {cs : List Char}
    (h : c.isDigit = false) : parseNumShape (c :: cs) = none := by
  unfold parseNumShape
  rw [List.takeWhile_cons_of_neg (by simp [h])]
  simp

theorem stringMk_data (s : String) : String.mk s.data = s := by
  cases s
  rfl

/-- C9: a condition `params.<name> <op> <integer>` with a comparison operator
always evaluates to `true`, whatever the request context: substitution wraps
a present path-parameter value in double quotes (an absent one becomes the
bare text `undefined`), so the substituted text can match neither the
numeric shape (which needs a leading digit) nor the quoted-equality shapes
(which need a trailing quote), and the fail-open default fires. -/
theorem params_numeric_condition_always_true (ctx : RequestContext)
    (name op k : String)
    (hname : name.data ≠ []) (hword : ∀ c ∈ name.data, isWordChar c = true)
    (hop : op = ">" ∨ op = "<" ∨ op = ">=" ∨ op = "<=" ∨ op = "==")
    (hk : k.data ≠ []) (hkd : ∀ c ∈ k.data, c.isDigit = true) :
    evaluateCondition ctx ("params." ++ name ++ " " ++ op ++ " " ++ k) = true := by
  have hopc : ∀ c ∈ op.data, isCmpChar c = true := by
    rcases hop with rfl | rfl | rfl | rfl | rfl <;> decide
  apply evalCond_true_of_not_shape
  set cond := "params." ++ name ++ " " ++ op ++ " " ++ k with hcond
  have hdata : cond.data =
      "params.".data ++ (name.data ++ (' ' :: (op.data ++ ' ' :: k.data))) := by
    rw [hcond]
    simp [String.data_append]
  -- the params replace fires once, at the head
  have hstep1 : substPrefixed "params.".data (paramRepl ctx) cond.data =
      paramRepl ctx name ++ (' ' :: (op.data ++ ' ' :: k.data)) := by
    unfold substPrefixed
    rw [hdata]
    have hlen : ("params.".data ++ (name.data ++ (' ' :: (op.data ++ ' ' :: k.data)))).length =
        (("params.".data ++ (name.data ++ (' ' :: (op.data ++ ' ' :: k.data)))).length - 1) + 1 := by
      have hpos : 0 < ("params.".data ++ (name.data ++ (' ' :: (op.data ++ ' ' :: k.data)))).length := by
        simp
      omega
    rw [hlen]
    have hshape : "params.".data ++ (name.data ++ (' ' :: (op.data ++ ' ' :: k.data))) =
        "params.".data ++ name.data ++ (' ' :: (op.data ++ ' ' :: k.data)) := by
      simp [List.append_assoc]
    rw [hshape]
    rw [substF_match (op.data ++ ' ' :: k.data) (paramRepl ctx) _
      (by decide) hname hword (by decide)]
    rw [stringMk_data]
    congr 1
    have hno : ∀ c ∈ (' ' :: (op.data ++ ' ' :: k.data)), ¬c = 'p' := by
      intro c hc
      rcases List.mem_cons.mp hc with rfl | hc2
      · decide
      · rcases List.mem_append.mp hc2 with hc3 | hc4
        · have hcc := hopc c hc3
          intro hcp
          rw [hcp] at hcc
          exact absurd hcc (by decide)
        · rcases List.mem_cons.mp hc4 with rfl | hc5
          · decide
          · have := hkd c hc5
            intro hcp
            rw [hcp] at this
            simp at this
    have hpe : "params.".data = 'p' :: "arams.".data := rfl
    rw [hpe]
    exact substF_id_of_no_head (paramRepl ctx) hno _
  -- the query replace leaves the tail alone
  have hstep2 : processedCondition ctx cond =
      substPrefixedF "query.".data (queryRepl ctx)
        ((paramRepl ctx name ++ (' ' :: (op.data ++ ' ' :: k.data))).length)
        (paramRepl ctx name) ++ (' ' :: (op.data ++ ' ' :: k.data)) := by
    unfold processedCondition
    rw [hstep1]
    unfold substPrefixed
    exact substF_append_inert (queryRepl ctx)
      (P := fun c => c = ' ' || isCmpChar c || c.isDigit)
      (by decide)
      (by decide)
      (by
        intro b hb
        rcases List.mem_cons.mp hb with rfl | hb2
        · decide
        · rcases List.mem_append.mp hb2 with hb3 | hb4
          · simp [hopc b hb3]
          · rcases List.mem_cons.mp hb4 with rfl | hb5
            · decide
            · simp [hkd b hb5])
      (by decide) _ _
  -- the substituted text starts with a quote or with the letter u
  have hhead : ∃ c0 ys, processedCondition ctx cond =
      c0 :: (ys ++ (' ' :: (op.data ++ ' ' :: k.data))) ∧ c0.isDigit = false := by
    rw [hstep2]
    cases hQ : assocFind ctx.params name with
    | some v =>
      have hq : paramRepl ctx name = '"' :: (v.data ++ ['"']) := by
        simp [paramRepl, hQ]
      rw [hq]
      obtain ⟨ys, hys⟩ := substF_head_of_ne 'q' '"' "uery.".data (v.data ++ ['"'])
        (queryRepl ctx) (by decide)
        ((('"' :: (v.data ++ ['"'])) ++ (' ' :: (op.data ++ ' ' :: k.data))).length)
      rw [show ('q' :: "uery.".data) = "query.".data from rfl] at hys
      rw [hys]
      exact ⟨'"', ys, by simp, by decide⟩
    | none =>
      have hq : paramRepl ctx name = 'u' :: "ndefined".data := by
        simp [paramRepl, hQ]
      rw [hq]
      obtain ⟨ys, hys⟩ := substF_head_of_ne 'q' 'u' "uery.".data "ndefined".data
        (queryRepl ctx) (by decide)
        ((('u' :: "ndefined".data) ++ (' ' :: (op.data ++ ' ' :: k.data))).length)
      rw [show ('q' :: "uery.".data) = "query.".data from rfl] at hys
      rw [hys]
      exact ⟨'u', ys, by simp, by decide⟩
  -- the substituted text ends with a digit
  obtain ⟨c0, ys, hform, hc0⟩ := hhead
  obtain ⟨dig, hdig⟩ : ∃ d, k.data.getLast? = some d ∧ d.isDigit = true := by
    refine ⟨k.data.getLast hk, List.getLast?_eq_getLast k.data hk, ?_⟩
    exact hkd _ (List.getLast_mem hk)
  have hlast : (processedCondition ctx cond).getLast? = some dig := by
    rw [hform]
    have : c0 :: (ys ++ (' ' :: (op.data ++ ' ' :: k.data))) =
        (c0 :: ys ++ (' ' :: op.data ++ [' '])) ++ k.data := by
      simp
    rw [this]
    exact getLast?_append_right _ hdig.1
  -- no supported shape matches
  have hnum : parseNumShape (processedCondition ctx cond) = none := by
    rw [hform]
    exact parseNumShape_none_of_head hc0
  have heqn : parseEqShape (processedCondition ctx cond) = none := by
    cases he : parseEqShape (processedCondition ctx cond) with
    | none => rfl
    | some ab =>
      have hq2 := parseEqShape_some_last he
      rw [hlast] at hq2
      have hd2 : dig = '"' := by injection hq2
      rw [hd2] at hdig
      exact absurd hdig.2 (by decide)
  have hneqn : parseNeqShape (processedCondition ctx cond) = none := by
    cases he : parseNeqShape (processedCondition ctx cond) with
    | none => rfl
    | some ab =>
      have hq2 := parseNeqShape_some_last he
      rw [hlast] at hq2
      have hd2 : dig = '"' := by injection hq2
      rw [hd2] at hdig
      exact absurd hdig.2 (by decide)
  unfold isSupportedShape
  rw [heqn, hneqn, hnum]
  rfl

/-- Witness for C9 at a concrete context and condition. -/
theorem params_numeric_condition_witness :
    evaluateCondition ⟨[("id", "7")], [], none, []⟩ "params.id > 10" = true :=
  params_numeric_condition_always_true ⟨[("id", "7")], [], none, []⟩ "id" ">" "10"
    (by decide) (by decide) (Or.inl rfl) (by decide) (by decide)

/-! ### Template-engine claims -/

/-- C8: template expansion is the identity on strings that contain no
placeholder opener (`includes('\x7b\x7b')` is false), for every context. -/
theorem expand_identity_on_placeholder_free (o : Oracle) (ctx : RequestContext)
    (s : String) (h : containsSeq [lbrace, lbrace] s.data = false) :
    processTemplate o ctx (.str s) = .str s := by
  show processStringTemplate o ctx s = .str s
  unfold processStringTemplate
  rw [h]
  rfl

/-- Witness for C8 at a concrete placeholder-free string. -/
theorem expand_identity_witness :
    containsSeq [lbrace, lbrace] "hello world".data = false ∧
    processTemplate oFix ⟨[], [], none, []⟩ (.str "hello world") = .str "hello world" :=
  ⟨by decide,
   expand_identity_on_placeholder_free oFix ⟨[], [], none, []⟩ "hello world" (by decide)⟩

/-- C2 (amended): type coercion of the substituted result can only happen
when the template string starts with `\x7b\x7b`, ends with `\x7d\x7d`, and
ends with a complete placeholder — the source's test is merely
end-anchored, without trimming, so a string of several adjacent
placeholders is also coerced (see the counterexample). -/
theorem template_coercion_only_at_bb_boundaries (o : Oracle) (ctx : RequestContext)
    (s : String) (h : (processTemplate o ctx (.str s)).isStr = false) :
    startsBB s.data = true ∧ endsBB s.data = true ∧ endsWithPlaceholder s.data = true := by
  have hps : processTemplate o ctx (.str s) = processStringTemplate o ctx s := rfl
  rw [hps] at h
  unfold processStringTemplate at h
  by_cases h1 : containsSeq [lbrace, lbrace] s.data = false
  · rw [if_pos h1] at h
    simp [Val.isStr] at h
  · rw [if_neg h1] at h
    by_cases h2 : (templateScanF o ctx s.data.length s.data).2 = true ∧
        startsBB s.data = true ∧ endsBB s.data = true ∧ endsWithPlaceholder s.data = true
    · exact ⟨h2.2.1, h2.2.2.1, h2.2.2.2⟩
    · rw [if_neg h2] at h
      simp [Val.isStr] at h

/-- Counterexample to C2 as stated: the trimmed template is two adjacent
placeholders (not exactly one), yet expansion coerces the substituted text
`"42"` to the *number* 42 instead of leaving text. -/
theorem template_multi_placeholder_coerces :
    isExactlyOnePlaceholder (jsTrim "\x7b\x7bparams.a\x7d\x7d\x7b\x7bparams.b\x7d\x7d") = false ∧
    processTemplate oFix ⟨[("a", "4"), ("b", "2")], [], none, []⟩
      (.str "\x7b\x7bparams.a\x7d\x7d\x7b\x7bparams.b\x7d\x7d") = .num 42 :=
  ⟨by decide, rfl⟩

/-- Witness for the amended C2 at a concrete coerced expansion. -/
theorem template_coercion_boundaries_witness :
    (processTemplate oFix ⟨[("id", "42")], [], none, []⟩
        (.str "\x7b\x7bparams.id\x7d\x7d")).isStr = false ∧
    (startsBB "\x7b\x7bparams.id\x7d\x7d".data = true ∧
     endsBB "\x7b\x7bparams.id\x7d\x7d".data = true ∧
     endsWithPlaceholder "\x7b\x7bparams.id\x7d\x7d".data = true) :=
  ⟨rfl, template_coercion_only_at_bb_boundaries oFix ⟨[("id", "42")], [], none, []⟩
    "\x7b\x7bparams.id\x7d\x7d" rfl⟩

/-- A non-`null` property read never throws: it yields an own JSON value, a
prototype-inherited host value, or `undefined`. -/
theorem jsIndex_cases (v : Val) (k : String) (hv : ¬v = .null) :
    (∃ v2, jsIndex v k = .ok (some (.json v2))) ∨
    (∃ t k0, jsIndex v k = .ok (some (.host t k0))) ∨ jsIndex v k = .ok none := by
  cases v with
  | null => exact absurd rfl hv
  | bool b =>
    by_cases hp : protoName .boolT k = true
    · refine .inr (.inl ⟨.boolT, k, ?_⟩)
      simp only [jsIndex]
      rw [if_pos hp]
    · refine .inr (.inr ?_)
      simp only [jsIndex]
      rw [if_neg hp]
  | num q =>
    by_cases hp : protoName .numT k = true
    · refine .inr (.inl ⟨.numT, k, ?_⟩)
      simp only [jsIndex]
      rw [if_pos hp]
    · refine .inr (.inr ?_)
      simp only [jsIndex]
      rw [if_neg hp]
  | str s =>
    by_cases hlen : k = "length"
    · refine .inl ⟨.num (s.length : Nat), ?_⟩
      simp only [jsIndex]
      rw [if_pos hlen]
    · cases hi : (toCanonicalIndex k).bind (fun i => s.data.get? i) with
      | some c =>
        refine .inl ⟨.str (String.mk [c]), ?_⟩
        simp only [jsIndex]
        rw [if_neg hlen]
        simp only [hi]
      | none =>
        by_cases hp : protoName .strT k = true
        · refine .inr (.inl ⟨.strT, k, ?_⟩)
          simp only [jsIndex]
          rw [if_neg hlen]
          simp only [hi]
          rw [if_pos hp]
        · refine .inr (.inr ?_)
          simp only [jsIndex]
          rw [if_neg hlen]
          simp only [hi]
          rw [if_neg hp]
  | arr xs =>
    by_cases hlen : k = "length"
    · refine .inl ⟨.num (xs.length : Nat), ?_⟩
      simp only [jsIndex]
      rw [if_pos hlen]
    · cases hi : (toCanonicalIndex k).bind (fun i => xs.get? i) with
      | some v2 =>
        refine .inl ⟨v2, ?_⟩
        simp only [jsIndex]
        rw [if_neg hlen]
        simp only [hi]
      | none =>
        by_cases hp : protoName .arrT k = true
        · refine .inr (.inl ⟨.arrT, k, ?_⟩)
          simp only [jsIndex]
          rw [if_neg hlen]
          simp only [hi]
          rw [if_pos hp]
        · refine .inr (.inr ?_)
          simp only [jsIndex]
          rw [if_neg hlen]
          simp only [hi]
          rw [if_neg hp]
  | obj fs =>
    cases ha : assocFind fs k with
    | some v2 =>
      refine .inl ⟨v2, ?_⟩
      simp only [jsIndex, ha]
    | none =>
      by_cases hp : protoName .objT k = true
      · refine .inr (.inl ⟨.objT, k, ?_⟩)
        simp only [jsIndex, ha]
        rw [if_pos hp]
      · refine .inr (.inr ?_)
        simp only [jsIndex, ha]
        rw [if_neg hp]

theorem getNestedWalk_absent (o : Oracle) : ∀ (segs : List String) (v : Val),
    walkHitsNull v segs = false → hasPath v segs = false →
    getNestedWalk o (.json v) segs = .ok none := by
  intro segs
  induction segs with
  | nil => intro v _ habs; simp [hasPath] at habs
  | cons k ks ih =>
    intro v hnull habs
    cases v with
    | null => simp [walkHitsNull] at hnull
    | bool b =>
      rcases jsIndex_cases (.bool b) k (fun h => Val.noConfusion h)
        with ⟨v2, hj⟩ | ⟨t, k0, hj⟩ | hj
      · have hnull2 : walkHitsNull v2 ks = false := by
          simp only [walkHitsNull, jsIndexPure, hj] at hnull
          exact hnull
        have habs2 : hasPath v2 ks = false := by
          simp only [hasPath, jsIndexPure, hj] at habs
          exact habs
        simp only [getNestedWalk, hj]
        exact ih v2 hnull2 habs2
      · simp [hasPath, jsIndexPure, hj] at habs
      · simp only [getNestedWalk, hj]
    | num q =>
      rcases jsIndex_cases (.num q) k (fun h => Val.noConfusion h)
        with ⟨v2, hj⟩ | ⟨t, k0, hj⟩ | hj
      · have hnull2 : walkHitsNull v2 ks = false := by
          simp only [walkHitsNull, jsIndexPure, hj] at hnull
          exact hnull
        have habs2 : hasPath v2 ks = false := by
          simp only [hasPath, jsIndexPure, hj] at habs
          exact habs
        simp only [getNestedWalk, hj]
        exact ih v2 hnull2 habs2
      · simp [hasPath, jsIndexPure, hj] at habs
      · simp only [getNestedWalk, hj]
    | str s =>
      rcases jsIndex_cases (.str s) k (fun h => Val.noConfusion h)
        with ⟨v2, hj⟩ | ⟨t, k0, hj⟩ | hj
      · have hnull2 : walkHitsNull v2 ks = false := by
          simp only [walkHitsNull, jsIndexPure, hj] at hnull
          exact hnull
        have habs2 : hasPath v2 ks = false := by
          simp only [hasPath, jsIndexPure, hj] at habs
          exact habs
        simp only [getNestedWalk, hj]
        exact ih v2 hnull2 habs2
      · simp [hasPath, jsIndexPure, hj] at habs
      · simp only [getNestedWalk, hj]
    | arr xs =>
      rcases jsIndex_cases (.arr xs) k (fun h => Val.noConfusion h)
        with ⟨v2, hj⟩ | ⟨t, k0, hj⟩ | hj
      · have hnull2 : walkHitsNull v2 ks = false := by
          simp only [walkHitsNull, jsIndexPure, hj] at hnull
          exact hnull
        have habs2 : hasPath v2 ks = false := by
          simp only [hasPath, jsIndexPure, hj] at habs
          exact habs
        simp only [getNestedWalk, hj]
        exact ih v2 hnull2 habs2
      · simp [hasPath, jsIndexPure, hj] at habs
      · simp only [getNestedWalk, hj]
    | obj fs =>
      rcases jsIndex_cases (.obj fs) k (fun h => Val.noConfusion h)
        with ⟨v2, hj⟩ | ⟨t, k0, hj⟩ | hj
      · have hnull2 : walkHitsNull v2 ks = false := by
          simp only [walkHitsNull, jsIndexPure, hj] at hnull
          exact hnull
        have habs2 : hasPath v2 ks = false := by
          simp only [hasPath, jsIndexPure, hj] at habs
          exact habs
        simp only [getNestedWalk, hj]
        exact ih v2 hnull2 habs2
      · simp [hasPath, jsIndexPure, hj] at habs
      · simp only [getNestedWalk, hj]

/-- C6 (amended): expanding a `body.<dotted.path>` expression yields the
empty string whenever some segment of the path fails to resolve — absent
from the own properties *and* not a prototype-inherited member (`hasPath`
counts inherited names such as `toString` or `push` as present, so the
hypothesis excludes them) — provided the traversal never reads a property
of an intermediate `null` value (the expansion itself is a total function,
so nothing is thrown out of the engine).  When a `null` intermediate is
read, the `TypeError` is caught and the raw expression text is substituted
instead — see the counterexample. -/
theorem body_path_absent_empty (o : Oracle) (ctx : RequestContext) (path : String)
    (hnull : bodyEvalHitsNull ctx.body path = false)
    (habs : bodyHasPath ctx.body (splitOnCharStr '.' path) = false) :
    evaluateExpression o ctx ("body." ++ path) = "" := by
  have hdat : ("body." ++ path).data = "body.".data ++ path.data := by
    simp [String.data_append]
  have e1 : stripPre "params.".data ("body." ++ path).data = none := by
    rw [hdat]
    rfl
  have e2 : stripPre "query.".data ("body." ++ path).data = none := by
    rw [hdat]
    rfl
  have e3 : stripPre "body.".data ("body." ++ path).data = some path.data := by
    rw [hdat]
    exact stripPre_self_append _ _
  unfold evaluateExpression
  simp only [e1, e2, e3, stringMk_data]
  have hg : getNestedProperty o ctx.body path = .ok none := by
    unfold getNestedProperty
    cases hb : ctx.body with
    | none => rfl
    | some v =>
      rw [hb] at hnull habs
      show (if isObjectLike v = true then
              getNestedWalk o (.json v) (splitOnCharStr '.' path)
            else Except.ok none) = Except.ok none
      have hnull2 : (isObjectLike v && walkHitsNull v (splitOnCharStr '.' path)) = false :=
        hnull
      have habs2 : (isObjectLike v && hasPath v (splitOnCharStr '.' path)) = false :=
        habs
      by_cases hobj : isObjectLike v = true
      · rw [if_pos hobj]
        rw [hobj, Bool.true_and] at hnull2 habs2
        exact getNestedWalk_absent o _ v hnull2 habs2
      · rw [if_neg hobj]
  rw [hg]

/-- Counterexample to C6 as stated: with body `\x7ba: null\x7d` and path
`a.b`, the segment `b` is absent, yet expansion returns the raw expression
text `body.a.b` (the `TypeError` from reading `null.b` is caught and the
`catch` branch returns the expression), not the empty string. -/
theorem body_null_path_returns_expression :
    splitOnCharStr '.' "a.b" = ["a", "b"] ∧
    bodyHasPath (some (Val.obj [("a", Val.null)])) ["a", "b"] = false ∧
    evaluateExpression oFix ⟨[], [], some (.obj [("a", .null)]), []⟩ "body.a.b" =
      "body.a.b" :=
  ⟨by decide, by decide, rfl⟩

/-- Witness for the amended C6 at a concrete absent path. -/
theorem body_path_absent_empty_witness :
    bodyEvalHitsNull (some (Val.obj [("a", Val.str "x")])) "zz" = false ∧
    bodyHasPath (some (Val.obj [("a", Val.str "x")])) (splitOnCharStr '.' "zz") = false ∧
    evaluateExpression oFix ⟨[], [], some (.obj [("a", .str "x")]), []⟩ "body.zz" = "" :=
  ⟨by decide, by decide,
   body_path_absent_empty oFix ⟨[], [], some (.obj [("a", .str "x")]), []⟩ "zz"
     (by decide) (by decide)⟩

/-! ### Dispatcher encoding (C10) -/

theorem getBinaryContentType_default {t : String} (h : hasBinaryMarker t = false) :
    getBinaryContentType t = "application/octet-stream" := by
  unfold hasBinaryMarker at h
  simp only [Bool.or_eq_false_iff] at h
  obtain ⟨⟨⟨⟨h1, h2⟩, h3⟩, h4⟩, h5⟩ := h
  unfold getBinaryContentType
  rw [if_neg, if_neg, if_neg, if_neg, if_neg] <;> simp_all

/-- C10: when the fully expanded response is a string longer than 50
characters that is a fixed point of base64 decode/re-encode, the dispatcher
sends the decoded bytes as a binary response; with no `binary.<kind>`
placeholder in the original template (and no declared Content-Type header)
the inferred content type is `application/octet-stream`. -/
theorem binary_sniffing_decodes (o : Oracle) (ctx : RequestContext)
    (e : MockEndpoint) (s : String)
    (hexp : processTemplate o ctx e.response = .str s)
    (hlen : s.length > 50)
    (hrt : String.mk (b64Encode (b64Decode s.data)) = s)
    (hct : headersHaveContentType (e.headers.getD []) = false)
    (hnb : hasBinaryMarker (templateAsString e.response) = false) :
    dispatchEncode o ctx e =
      .binary (statusCodeOf e)
        (e.headers.getD [] ++ [("Content-Type", "application/octet-stream")])
        (b64Decode s.data) := by
  unfold dispatchEncode
  simp only [hexp]
  have hbin : isBinaryResponse s = true := by
    unfold isBinaryResponse
    rw [decide_eq_true hlen, decide_eq_true hrt]
    rfl
  rw [hbin]
  simp only [if_true]
  rw [if_neg (by rw [hct]; exact Bool.false_ne_true)]
  rw [getBinaryContentType_default hnb]

/-- Witness for C10: 64 `A` characters round-trip through base64 and decode
to 48 zero bytes. -/
theorem binary_sniffing_witness :
    dispatchEncode oFix ⟨[], [], none, []⟩
      ⟨none, none,
       .str "AAAAAAAAAAAAAAAAAAAAAAAAAAAAAAAAAAAAAAAAAAAAAAAAAAAAAAAAAAAAAAAA",
       none, none⟩ =
      .binary 200 [("Content-Type", "application/octet-stream")]
        (b64Decode "AAAAAAAAAAAAAAAAAAAAAAAAAAAAAAAAAAAAAAAAAAAAAAAAAAAAAAAAAAAAAAAA".data) :=
  binary_sniffing_decodes oFix ⟨[], [], none, []⟩
    ⟨none, none,
     .str "AAAAAAAAAAAAAAAAAAAAAAAAAAAAAAAAAAAAAAAAAAAAAAAAAAAAAAAAAAAAAAAA",
     none, none⟩
    "AAAAAAAAAAAAAAAAAAAAAAAAAAAAAAAAAAAAAAAAAAAAAAAAAAAAAAAAAAAAAAAA"
    rfl (by decide) (by decide) (by decide) (by decide)

/-! ### Route-compiler lemmas (literal paths) -/

theorem splitOnCharL_no_sep {sep : Char} {l : List Char}
    (h : ∀ c ∈ l, ¬c = sep) : splitOnCharL sep l = [l] := by
  induction l with
  | nil => rfl
  | cons c cs ih =>
    have hc : ¬c = sep := h c (by simp)
    have ihc := ih (fun x hx => h x (by simp [hx]))
    simp only [splitOnCharL, if_neg hc, ihc]

theorem splitOnCharL_sep_append {m p : List Char}
    (hm : ∀ c ∈ m, ¬c = ' ') :
    splitOnCharL ' ' (m ++ ' ' :: p) = m :: splitOnCharL ' ' p := by
  induction m with
  | nil => simp [splitOnCharL]
  | cons c cs ih =>
    have hc : ¬c = ' ' := hm c (by simp)
    have ihc := ih (fun x hx => hm x (by simp [hx]))
    show splitOnCharL ' ' (c :: (cs ++ ' ' :: p)) = _
    simp only [splitOnCharL, if_neg hc]
    rw [ihc]

theorem splitOnCharL_ne_nil {sep : Char} (l : List Char) :
    splitOnCharL sep l ≠ [] := by
  cases l with
  | nil => simp [splitOnCharL]
  | cons c cs =>
    simp only [splitOnCharL]
    by_cases hc : c = sep
    · simp [hc]
    · rw [if_neg hc]
      cases h : splitOnCharL sep cs with
      | nil => simp
      | cons a b => simp

theorem replaceParamsF_no_colon {l : List Char}
    (h : ∀ c ∈ l, ¬c = ':') : ∀ fuel, replaceParamsF fuel l = (l, []) := by
  intro fuel
  induction fuel generalizing l with
  | zero => rfl
  | succ f ih =>
    cases l with
    | nil => rfl
    | cons c cs =>
      have hc : ¬c = ':' := h c (by simp)
      have ihc := ih (l := cs) (fun x hx => h x (by simp [hx]))
      simp only [replaceParamsF, if_neg hc, ihc]

theorem replaceStars_id {l : List Char} (h : ∀ c ∈ l, ¬c = '*') :
    replaceStars l = l := by
  induction l with
  | nil => rfl
  | cons c cs ih =>
    have hc : ¬c = '*' := h c (by simp)
    simp only [replaceStars, List.foldr_cons, if_neg hc]
    have ihc := ih (fun x hx => h x (by simp [hx]))
    simp only [replaceStars] at ihc
    rw [ihc]
    simp

theorem escapeSlashes_length_ge (l : List Char) :
    l.length ≤ (escapeSlashes l).length := by
  induction l with
  | nil => simp [escapeSlashes]
  | cons c cs ih =>
    simp only [escapeSlashes, List.foldr_cons] at ih ⊢
    by_cases hc : c = '/'
    · simp [hc]
      omega
    · simp [hc]
      omega

theorem parseQuantAt_id {cs : List Char}
    (h : ∀ c0, cs.head? = some c0 →
      ¬c0 = '*' ∧ ¬c0 = '+' ∧ ¬c0 = '?' ∧ ¬c0 = lbrace) :
    parseQuantAt cs = (.one, cs) := by
  cases cs with
  | nil => rfl
  | cons c r =>
    obtain ⟨h1, h2, h3, h4⟩ := h c rfl
    simp only [parseQuantAt, if_neg h1, if_neg h2, if_neg h3, if_neg h4]

/-- Heads that can start the remainder of an escaped literal path followed
by the final anchor. -/
theorem escTail_head_ok {l : List Char} (hpc : ∀ c ∈ l, routeLiteralChar c = true) :
    ∀ c0, (escapeSlashes l ++ ['$']).head? = some c0 →
      ¬c0 = '*' ∧ ¬c0 = '+' ∧ ¬c0 = '?' ∧ ¬c0 = lbrace := by
  intro c0 hc0
  cases l with
  | nil => simp [escapeSlashes] at hc0; subst hc0; refine ⟨by decide, by decide, by decide, by decide⟩
  | cons c cs =>
    have hc := hpc c (by simp)
    simp only [escapeSlashes, List.foldr_cons] at hc0
    by_cases hsl : c = '/'
    · rw [if_pos hsl] at hc0
      simp at hc0
      subst hc0
      refine ⟨by decide, by decide, by decide, by decide⟩
    · rw [if_neg hsl] at hc0
      simp at hc0
      subst hc0
      unfold routeLiteralChar at hc
      simp only [Bool.not_eq_true', Bool.or_eq_false_iff] at hc
      refine ⟨?_, ?_, ?_, ?_⟩ <;> simp_all [decide_eq_false_iff_not]

theorem parseAtomF_lit {c : Char} (hc : routeLiteralChar c = true)
    (fuel ctr : Nat) (rest : List Char) :
    parseAtomF (fuel + 1) ctr (c :: rest) = some (.lit c, ctr, rest) := by
  have hne : ∀ m : Char, routeLiteralChar m = false → ¬c = m := by
    intro m hm hcm
    rw [hcm] at hc
    rw [hc] at hm
    simp at hm
  unfold parseAtomF
  rw [if_neg (hne '^' (by decide)), if_neg (hne '$' (by decide)),
    if_neg (hne '.' (by decide)),
    if_neg (by
      push_neg
      exact ⟨hne '*' (by decide), hne '+' (by decide), hne '?' (by decide)⟩),
    if_neg (hne '\\' (by decide)), if_neg (hne '[' (by decide)),
    if_neg (hne '(' (by decide))]

theorem parseAtomF_slash (fuel ctr : Nat) (rest : List Char) :
    parseAtomF (fuel + 1) ctr ('\\' :: '/' :: rest) = some (.lit '/', ctr, rest) := rfl

theorem parseSeqF_cons_step {fuel ctr : Nat} {c : Char} {tail : List Char}
    (hnc : ¬(c = ')' ∨ c = '|')) :
    parseSeqF (fuel + 1) ctr (c :: tail) =
      (match parseAtomF fuel ctr (c :: tail) with
       | some (a, ctr2, rest) =>
         (parseSeqF fuel ctr2 (parseQuantAt rest).2).map
           (fun p => (RPiece.mk a (parseQuantAt rest).1 :: p.1, p.2.1, p.2.2))
       | none => none) := by
  simp only [parseSeqF]
  rw [if_neg hnc]

theorem parseSeqF_esc_lits : ∀ (l : List Char) (ctr fuel : Nat),
    2 * l.length + 2 ≤ fuel → (∀ c ∈ l, routeLiteralChar c = true) →
    parseSeqF fuel ctr (escapeSlashes l ++ ['$']) =
      some (l.map (fun c => RPiece.mk (.lit c) .one) ++ [RPiece.mk .anchorEnd .one],
        ctr, []) := by
  intro l
  induction l with
  | nil =>
    intro ctr fuel hf _
    obtain ⟨f, rfl⟩ : ∃ f, fuel = f + 2 := ⟨fuel - 2, by omega⟩
    rfl
  | cons c cs ih =>
    intro ctr fuel hf hpc
    obtain ⟨g, rfl⟩ : ∃ g, fuel = g + 2 := ⟨fuel - 2, by omega⟩
    have hc := hpc c (by simp)
    have hquant := parseQuantAt_id
      (escTail_head_ok (l := cs) (fun x hx => hpc x (by simp [hx])))
    have hrec := ih ctr (g + 1) (by simp at hf ⊢; omega)
      (fun x hx => hpc x (by simp [hx]))
    by_cases hsl : c = '/'
    · subst hsl
      show parseSeqF (g + 2) ctr ('\\' :: '/' :: (escapeSlashes cs ++ ['$'])) = _
      rw [parseSeqF_cons_step (show ¬('\\' = ')' ∨ '\\' = '|') by decide)]
      rw [parseAtomF_slash]
      simp only [hquant, hrec, Option.map_some]
      simp
    · have hesc : escapeSlashes (c :: cs) = c :: escapeSlashes cs := by
        simp only [escapeSlashes, List.foldr_cons, if_neg hsl]
        simp
      rw [hesc]
      show parseSeqF (g + 2) ctr (c :: (escapeSlashes cs ++ ['$'])) = _
      rw [parseSeqF_cons_step (show ¬(c = ')' ∨ c = '|') by
        have hne : ∀ m : Char, routeLiteralChar m = false → ¬c = m := by
          intro m hm hcm
          rw [hcm] at hc
          rw [hc] at hm
          simp at hm
        push_neg
        exact ⟨hne ')' (by decide), hne '|' (by decide)⟩)]
      rw [parseAtomF_lit hc]
      simp only [hquant, hrec, Option.map_some]
      simp

theorem regexParse_esc_lits {l : List Char} (hpc : ∀ c ∈ l, routeLiteralChar c = true) :
    regexParse ('^' :: (escapeSlashes l ++ ['$'])) =
      some ⟨[RPiece.mk .anchorStart .one ::
        (l.map (fun c => RPiece.mk (.lit c) .one) ++ [RPiece.mk .anchorEnd .one])], 0⟩ := by
  unfold regexParse
  have hlen := escapeSlashes_length_ge l
  obtain ⟨g, hg⟩ : ∃ g, 2 * ('^' :: (escapeSlashes l ++ ['$'])).length + 8 = g + 2 + 1 := by
    refine ⟨2 * ('^' :: (escapeSlashes l ++ ['$'])).length + 5, by omega⟩
  rw [hg]
  have hseq : parseSeqF (g + 2) 0 ('^' :: (escapeSlashes l ++ ['$'])) =
      some (RPiece.mk .anchorStart .one ::
        (l.map (fun c => RPiece.mk (.lit c) .one) ++ [RPiece.mk .anchorEnd .one]), 0, []) := by
    rw [parseSeqF_cons_step (show ¬('^' = ')' ∨ '^' = '|') by decide)]
    have hatom : parseAtomF (g + 1) 0 ('^' :: (escapeSlashes l ++ ['$'])) =
        some (.anchorStart, 0, escapeSlashes l ++ ['$']) := rfl
    rw [hatom]
    have hquant := parseQuantAt_id (escTail_head_ok (l := l) hpc)
    have hrec := parseSeqF_esc_lits l 0 (g + 1)
      (by
        simp only [List.length_cons, List.length_append] at hg
        simp
        omega)
      hpc
    simp only [hquant, hrec, Option.map_some]
    rfl
  simp only [parseAltsF, hseq]

/-- `parseRoute` on a declaration whose path is plain literal text compiles
to the obvious anchored literal pattern with no parameters (no verb
validation happens along the way). -/
theorem parseRoute_literal (m p : String)
    (hm : m.data ≠ []) (hms : ∀ c ∈ m.data, ¬c = ' ')
    (hp : p.data ≠ []) (hpc : ∀ c ∈ p.data, routeLiteralChar c = true) :
    parseRoute (m ++ " " ++ p) = .ok
      ⟨jsToUpper m, p, m ++ " " ++ p, [],
       ⟨[RPiece.mk .anchorStart .one ::
          (p.data.map (fun c => RPiece.mk (.lit c) .one) ++
            [RPiece.mk .anchorEnd .one])], 0⟩⟩ := by
  have hps : ∀ c ∈ p.data, ¬c = ' ' := by
    intro c hc hcs
    have := hpc c hc
    rw [hcs] at this
    exact absurd this (by decide)
  have hdat : (m ++ " " ++ p).data = m.data ++ ' ' :: p.data := by
    simp [String.data_append]
  unfold parseRoute
  rw [hdat, splitOnCharL_sep_append hms, splitOnCharL_no_sep hps]
  simp only [List.headD_cons, List.drop_succ_cons, List.drop_zero]
  rw [show List.intercalate [' '] [p.data] = p.data by simp [List.intercalate]]
  rw [stringMk_data, stringMk_data]
  rw [if_neg (by
    push_neg
    constructor
    · intro hmm
      apply hm
      rw [hmm]
    · intro hpp
      apply hp
      rw [hpp])]
  have hcolon : ∀ c ∈ p.data, ¬c = ':' := by
    intro c hc hcs
    have := hpc c hc
    rw [hcs] at this
    exact absurd this (by decide)
  have hstar : ∀ c ∈ p.data, ¬c = '*' := by
    intro c hc hcs
    have := hpc c hc
    rw [hcs] at this
    exact absurd this (by decide)
  rw [replaceParamsF_no_colon hcolon]
  simp only
  rw [replaceStars_id hstar]
  rw [regexParse_esc_lits hpc]

theorem mAlts_nil (fuel : Nat) (st : MState) : mAlts fuel [] st = [] := by
  cases fuel <;> rfl

theorem mSeq_lits : ∀ (l : List Char) (fuel pos : Nat) (caps : List (Nat × String)),
    2 * l.length + 3 ≤ fuel →
    mSeq fuel (l.map (fun c => RPiece.mk (.lit c) .one) ++ [RPiece.mk .anchorEnd .one])
      ⟨l, pos, caps⟩ = [⟨[], pos + l.length, caps⟩] := by
  intro l
  induction l with
  | nil =>
    intro fuel pos caps hf
    obtain ⟨g, rfl⟩ : ∃ g, fuel = g + 3 := ⟨fuel - 3, by omega⟩
    rfl
  | cons c l2 ih =>
    intro fuel pos caps hf
    obtain ⟨g, rfl⟩ : ∃ g, fuel = g + 3 := ⟨fuel - 3, by omega⟩
    show (mPiece (g + 2) (RPiece.mk (.lit c) .one) ⟨c :: l2, pos, caps⟩).flatMap
      (fun st2 => mSeq (g + 2)
        (l2.map (fun x => RPiece.mk (.lit x) .one) ++ [RPiece.mk .anchorEnd .one]) st2) = _
    have hatom : mPiece (g + 2) (RPiece.mk (.lit c) .one) ⟨c :: l2, pos, caps⟩ =
        [⟨l2, pos + 1, caps⟩] := by
      show (if c = c then [(⟨l2, pos + 1, caps⟩ : MState)] else []) = _
      rw [if_pos rfl]
    rw [hatom]
    simp only [List.flatMap_cons, List.flatMap_nil, List.append_nil]
    rw [ih (g + 2) (pos + 1) caps (by simp at hf ⊢; omega)]
    have harith : pos + 1 + l2.length = pos + (c :: l2).length := by
      simp
      omega
    rw [harith]

theorem regexSearch_lits (l : List Char) :
    regexSearch
      ⟨[RPiece.mk .anchorStart .one ::
        (l.map (fun c => RPiece.mk (.lit c) .one) ++ [RPiece.mk .anchorEnd .one])], 0⟩ l =
      some ⟨[], l.length, []⟩ := by
  set re : JsRegex :=
    ⟨[RPiece.mk .anchorStart .one ::
      (l.map (fun c => RPiece.mk (.lit c) .one) ++ [RPiece.mk .anchorEnd .one])], 0⟩ with hre
  have hfuel : ∃ g, mFuel re l = g + 2 := by
    refine ⟨mFuel re l - 2, ?_⟩
    unfold mFuel
    omega
  obtain ⟨g, hg⟩ := hfuel
  have halts : mAlts (mFuel re l) re.alts ⟨l, 0, []⟩ = [⟨[], l.length, []⟩] := by
    rw [hg, hre]
    show mSeq (g + 1)
        (RPiece.mk .anchorStart .one ::
          (l.map (fun c => RPiece.mk (.lit c) .one) ++ [RPiece.mk .anchorEnd .one]))
        ⟨l, 0, []⟩ ++ mAlts (g + 1) [] ⟨l, 0, []⟩ = _
    rw [mAlts_nil, List.append_nil]
    obtain ⟨h, hh⟩ : ∃ h, g = h + 2 := by
      refine ⟨g - 2, ?_⟩
      unfold mFuel at hg
      omega
    rw [hh]
    show (mPiece (h + 2) (RPiece.mk .anchorStart .one) ⟨l, 0, []⟩).flatMap
      (fun st2 => mSeq (h + 2)
        (l.map (fun c => RPiece.mk (.lit c) .one) ++ [RPiece.mk .anchorEnd .one]) st2) = _
    have hanchor : mPiece (h + 2) (RPiece.mk .anchorStart .one) ⟨l, 0, []⟩ =
        [⟨l, 0, []⟩] := rfl
    rw [hanchor]
    simp only [List.flatMap_cons, List.flatMap_nil, List.append_nil]
    rw [mSeq_lits l (h + 2) 0 [] (by
      unfold mFuel at hg
      simp at hg ⊢
      omega)]
    rw [Nat.zero_add]
  unfold regexSearch
  obtain ⟨k, hk⟩ : ∃ k, l.length + 2 = k + 1 := ⟨l.length + 1, by omega⟩
  rw [hk]
  show (if 0 > l.length then none
        else match mAlts (mFuel re l) re.alts ⟨l.drop 0, 0, []⟩ with
          | st :: _ => some st
          | [] => searchFrom k re l 1) = _
  rw [if_neg (by omega)]
  rw [show l.drop 0 = l from rfl, halts]

/-- For a literal-path route, resolution of the exact method and path
succeeds with no parameters bound. -/
theorem matchRoute_literal (m p : String)
    (hm : m.data ≠ []) (hms : ∀ c ∈ m.data, ¬c = ' ')
    (hp : p.data ≠ []) (hpc : ∀ c ∈ p.data, routeLiteralChar c = true) :
    ∃ r, parseRoute (m ++ " " ++ p) = .ok r ∧ r.paramNames = [] ∧
      matchRoute r m p = .ok (some []) := by
  refine ⟨_, parseRoute_literal m p hm hms hp hpc, rfl, ?_⟩
  unfold matchRoute
  rw [if_neg (not_not_intro rfl)]
  rw [regexSearch_lits p.data]
  rfl

/-- C3 (counterexample): the declaration "FOO /x" uses a verb outside the
fixed HTTP-verb set — `validateHttpMethod` rejects it — yet `parseRoute`
compiles it successfully instead of failing. -/
theorem route_unrecognized_verb_compiles :
    (parseRoute "FOO /x").isOk = true ∧ validateHttpMethod "FOO" = false :=
  ⟨rfl, rfl⟩

/-- C3, amended: `parseRoute` fails exactly on declarations missing a
non-empty method token or a non-empty path token; it performs no
verb-set validation, so every non-empty space-free method token —
recognized HTTP verb or not — with a well-formed literal path compiles
to a route. -/
theorem route_compile_no_verb_validation :
    (parseRoute "").isOk = false ∧ (parseRoute "GET").isOk = false ∧
    ∀ m p : String, m.data ≠ [] → (∀ c ∈ m.data, ¬c = ' ') →
      p.data ≠ [] → (∀ c ∈ p.data, routeLiteralChar c = true) →
      (parseRoute (m ++ " " ++ p)).isOk = true := by
  refine ⟨rfl, rfl, ?_⟩
  intro m p hm hms hp hpc
  rw [parseRoute_literal m p hm hms hp hpc]
  rfl

theorem route_compile_no_verb_validation_witness :
    (parseRoute ("ZAP" ++ " " ++ "/y")).isOk = true :=
  route_compile_no_verb_validation.2.2 "ZAP" "/y" (by decide) (by decide)
    (by decide) (by decide)

/-- C5 (counterexample): "GET /a+" contains no `:name` segment and no `*`,
and compiles, yet resolving the same method with the exact literal path
"/a+" returns no match: the `+` reaches the compiled pattern as a regex
quantifier, so `^\/a+$` matches "/a", "/aa", … but not "/a+" itself. -/
theorem route_plus_path_no_selfmatch :
    (parseRoute "GET /a+").isOk = true ∧
    (match parseRoute "GET /a+" with
     | .ok r => matchRoute r "GET" "/a+"
     | .error _ => .error ()) = .ok none :=
  ⟨rfl, rfl⟩

/-- C5, amended: for declarations whose path contains no regex
metacharacter (in particular no `:name` segment and no `*`), compiling
and then resolving the same method with the exact literal path returns a
match with no path parameters bound. -/
theorem literal_route_roundtrip (m p : String)
    (hm : m.data ≠ []) (hms : ∀ c ∈ m.data, ¬c = ' ')
    (hp : p.data ≠ []) (hpc : ∀ c ∈ p.data, routeLiteralChar c = true) :
    ∃ r, parseRoute (m ++ " " ++ p) = .ok r ∧ r.paramNames = [] ∧
      matchRoute r m p = .ok (some []) :=
  matchRoute_literal m p hm hms hp hpc

theorem specLe_eq_true_iff (a b : ParsedRoute) :
    specLe a b = true ↔ routeCmp a b ≤ 0 := by
  unfold specLe
  exact decide_eq_true_iff

theorem routeCmp_neg (a b : ParsedRoute) : routeCmp b a = -routeCmp a b := by
  unfold routeCmp
  split_ifs <;> omega

theorem routeCmp_self (a : ParsedRoute) : routeCmp a a = 0 := by
  unfold routeCmp
  split_ifs <;> omega

theorem specLe_trans (a b c : ParsedRoute) :
    specLe a b = true → specLe b c = true → specLe a c = true := by
  rw [specLe_eq_true_iff, specLe_eq_true_iff, specLe_eq_true_iff]
  unfold routeCmp
  split_ifs <;> omega

theorem specLe_total (a b : ParsedRoute) : (specLe a b || specLe b a) = true := by
  rw [Bool.or_eq_true, specLe_eq_true_iff, specLe_eq_true_iff]
  unfold routeCmp
  split_ifs <;> omega

theorem findMatchingRoute_eq_some (m p : String) :
    ∀ (routes : List ParsedRoute) (r : ParsedRoute) (ps : List (String × String)),
    findMatchingRoute routes m p = .ok (some (r, ps)) →
    ∃ pre post, routes = pre ++ r :: post ∧
      (∀ x ∈ pre, matchRoute x m p = .ok none) ∧
      matchRoute r m p = .ok (some ps) := by
  intro routes
  induction routes with
  | nil =>
    intro r ps h
    simp only [findMatchingRoute] at h
    exact absurd h (by simp)
  | cons x rest ih =>
    intro r ps h
    simp only [findMatchingRoute] at h
    cases hmx : matchRoute x m p with
    | error e =>
      simp only [hmx] at h
      exact absurd h (by simp)
    | ok o =>
      cases o with
      | some ps2 =>
        simp only [hmx] at h
        simp only [Except.ok.injEq, Option.some.injEq, Prod.mk.injEq] at h
        obtain ⟨rfl, rfl⟩ := h
        exact ⟨[], rest, rfl, by simp, hmx⟩
      | none =>
        simp only [hmx] at h
        obtain ⟨pre, post, he, hpre, hr⟩ := ih r ps h
        refine ⟨x :: pre, post, by rw [he]; rfl, ?_, hr⟩
        intro y hy
        rcases List.mem_cons.mp hy with rfl | hy2
        · exact hmx
        · exact hpre y hy2

theorem pair_sublist_of_mem {α : Type} {a b : α} :
    ∀ {l : List α}, a ∈ l → b ∈ l → ¬a = b →
    [a, b].Sublist l ∨ [b, a].Sublist l := by
  intro l
  induction l with
  | nil =>
    intro ha
    cases ha
  | cons x t ih =>
    intro ha hb hne
    rcases List.mem_cons.mp ha with rfl | ha2
    · have hb2 : b ∈ t := by
        rcases List.mem_cons.mp hb with heq | h2
        · exact absurd heq.symm hne
        · exact h2
      exact .inl (List.Sublist.cons₂ _ (List.singleton_sublist.mpr hb2))
    · rcases List.mem_cons.mp hb with rfl | hb2
      · exact .inr (List.Sublist.cons₂ _ (List.singleton_sublist.mpr ha2))
      · exact (ih ha2 hb2 hne).imp (List.Sublist.cons x) (List.Sublist.cons x)

theorem pair_sublist_mid {α : Type} {a b : α} :
    ∀ (l₁ : List α) {l₂ : List α},
    [a, b].Sublist (l₁ ++ b :: l₂) → b ∉ l₁ → b ∉ l₂ → a ∈ l₁ := by
  intro l₁
  induction l₁ with
  | nil =>
    intro l₂ h hb1 hb2
    exfalso
    cases h with
    | cons _ h2 => exact hb2 (h2.subset (by simp))
    | cons₂ _ h2 => exact hb2 (List.singleton_sublist.mp h2)
  | cons x t ih =>
    intro l₂ h hb1 hb2
    simp only [List.cons_append] at h
    cases h with
    | cons _ h2 =>
      exact List.mem_cons_of_mem x
        (ih h2 (fun hh => hb1 (List.mem_cons_of_mem x hh)) hb2)
    | cons₂ _ h2 => exact List.mem_cons_self _ _

theorem mergeSort_pair {α : Type} (le : α → α → Bool) (a b : α) :
    [a, b].mergeSort le = if le a b then [a, b] else [b, a] := by
  simp [List.mergeSort, List.merge]

theorem literal_route_roundtrip_witness :
    ∃ r, parseRoute ("GET" ++ " " ++ "/users/list") = .ok r ∧
      r.paramNames = [] ∧ matchRoute r "GET" "/users/list" = .ok (some []) :=
  literal_route_roundtrip "GET" "/users/list" (by decide) (by decide)
    (by decide) (by decide)

/-- C4: resolution tries routes in specificity order — fewer path
parameters first, then more segments, then more static segments, ties
broken by declaration order. Whenever resolution over the sorted routes
selects route `r`: `r` is one of the declared routes and matches; every
other matching declared route ranks no better than `r` under the
comparator; and a matching route that fully ties with `r` was declared
after `r`. Moreover, with "GET /users/:id" and "GET /users/active" both
declared, GET /users/active resolves to the zero-parameter route. -/
theorem resolution_prefers_specific :
    (∀ (routes : List ParsedRoute) (m p : String) (r : ParsedRoute)
        (ps : List (String × String)), routes.Nodup →
      findMatchingRoute (sortRoutesBySpecificity routes) m p = .ok (some (r, ps)) →
      r ∈ routes ∧ matchRoute r m p = .ok (some ps) ∧
      (∀ r2 ∈ routes, routeMatches r2 m p = true → routeCmp r r2 ≤ 0) ∧
      (∀ r2 ∈ routes, routeMatches r2 m p = true → routeCmp r r2 = 0 →
        ¬r2 = r → [r, r2].Sublist routes)) ∧
    (∃ r1 r2 : ParsedRoute, parseRoute "GET /users/:id" = .ok r1 ∧
      parseRoute "GET /users/active" = .ok r2 ∧
      r1.paramNames = ["id"] ∧ r2.paramNames = [] ∧
      findMatchingRoute (sortRoutesBySpecificity [r1, r2]) "GET" "/users/active" =
        .ok (some (r2, []))) := by
  constructor
  · intro routes m p r ps hnd h
    have hperm : (sortRoutesBySpecificity routes).Perm routes :=
      List.mergeSort_perm routes specLe
    have hndS : (sortRoutesBySpecificity routes).Nodup := hperm.symm.nodup hnd
    obtain ⟨pre, post, hsp, hpre, hmr⟩ := findMatchingRoute_eq_some m p _ r ps h
    have hrS : r ∈ sortRoutesBySpecificity routes := by
      rw [hsp]
      simp
    have hrmem : r ∈ routes := hperm.mem_iff.mp hrS
    have hnomatch : ∀ r2, r2 ∈ pre → ¬routeMatches r2 m p = true := by
      intro r2 hr2p hm2
      unfold routeMatches at hm2
      simp only [hpre r2 hr2p] at hm2
      exact absurd hm2 (by simp)
    have hsorted : List.Pairwise (fun a b => specLe a b = true)
        (sortRoutesBySpecificity routes) :=
      List.sorted_mergeSort specLe_trans specLe_total routes
    rw [hsp] at hsorted
    obtain ⟨-, hsC, -⟩ := List.pairwise_append.mp hsorted
    obtain ⟨hrpost, -⟩ := List.pairwise_cons.mp hsC
    have hsplit : ∀ r2, r2 ∈ routes → r2 ∈ pre ∨ r2 = r ∨ r2 ∈ post := by
      intro r2 hr2
      have : r2 ∈ pre ++ r :: post := by
        rw [← hsp]
        exact hperm.mem_iff.mpr hr2
      rcases List.mem_append.mp this with h1 | h1
      · exact .inl h1
      · rcases List.mem_cons.mp h1 with h2 | h2
        · exact .inr (.inl h2)
        · exact .inr (.inr h2)
    refine ⟨hrmem, hmr, ?_, ?_⟩
    · intro r2 hr2 hm2
      rcases hsplit r2 hr2 with hc | hc | hc
      · exact absurd hm2 (hnomatch r2 hc)
      · rw [hc, routeCmp_self]
      · exact (specLe_eq_true_iff r r2).mp (hrpost r2 hc)
    · intro r2 hr2 hm2 hc0 hne
      have hne2 : ¬r = r2 := fun e => hne e.symm
      rcases pair_sublist_of_mem hrmem hr2 hne2 with hs | hs
      · exact hs
      · exfalso
        have hle : specLe r2 r = true := by
          rw [specLe_eq_true_iff, routeCmp_neg, hc0]
          omega
        have hsub : [r2, r].Sublist (sortRoutesBySpecificity routes) :=
          List.pair_sublist_mergeSort specLe_trans specLe_total hle hs
        rw [hsp] at hsub hndS
        have hrpre : r ∉ pre := by
          obtain ⟨-, -, hdis⟩ := List.nodup_append.mp hndS
          intro hin
          exact hdis hin (List.mem_cons_self _ _)
        have hrpost2 : r ∉ post := by
          obtain ⟨-, hC, -⟩ := List.nodup_append.mp hndS
          exact (List.nodup_cons.mp hC).1
        exact hnomatch r2 (pair_sublist_mid pre hsub hrpre hrpost2) hm2
  · refine ⟨_, _, rfl, rfl, rfl, rfl, ?_⟩
    show findMatchingRoute (List.mergeSort _ specLe) _ _ = _
    rw [mergeSort_pair]
    rw [if_neg (by decide)]
    rfl

theorem resolution_specificity_witness :
    ∃ r1 r2 : ParsedRoute, parseRoute "GET /users/:id" = .ok r1 ∧
      parseRoute "GET /users/active" = .ok r2 ∧
      r2 ∈ [r1, r2] ∧ matchRoute r2 "GET" "/users/active" = .ok (some []) := by
  obtain ⟨hgen, r1, r2, h1, h2, hp1, hp2, hfind⟩ := resolution_prefers_specific
  have hnd : ([r1, r2] : List ParsedRoute).Nodup := by
    simp only [List.nodup_cons, List.mem_cons, List.not_mem_nil, or_false,
      List.nodup_nil, and_true, not_false_iff, List.mem_singleton]
    intro heq
    rw [heq, hp2] at hp1
    cases hp1
  obtain ⟨hmem, hmatch, -, -⟩ :=
    hgen [r1, r2] "GET" "/users/active" r2 [] hnd hfind
  exact ⟨r1, r2, h1, h2, hmem, hmatch⟩

end MockApi
